import Mathlib

/-!
Verification of the custom-property cascade and substitution engine
(`src/components/style/custom_properties.rs`).

The engine is built on the external `cssparser` tokenizer, which the spec
treats as an interface.  We embed the token stream shallowly: a parsed CSS
input is a list of tokens (`Tok`), nested blocks appearing as sub-lists, and
every token knows its raw source text, so that the source's
position/slice-based string manipulation becomes concatenation of raw token
texts.  Recursive functions over the token tree carry an explicit fuel
argument (structural recursion on the fuel keeps every definition
kernel-computable); public entry points instantiate the fuel with `sizeOf`
of the input, which strictly dominates every recursive call.
-/

/-- Modelled from the spec: `TokenSerializationType` is an opaque tag sourced
from the external tokenizer (`cssparser`), with operations `nothing()` and
`needs_separator_when_before`.  The constructors are the serialization
classes of CSS tokens. -/
inductive TST where
  | Nothing
  | WhiteSpace
  | AtKeywordOrHash
  | Number
  | Dimension
  | Percentage
  | UrlOrBadUrl
  | Function
  | Ident
  | CDC
  | DashMatch
  | SubstringMatch
  | OpenParen
  | DelimHash
  | DelimAt
  | DelimDotOrPlus
  | DelimMinus
  | DelimQuestion
  | DelimAssorted
  | DelimSlash
  | Other
deriving DecidableEq

/-- Modelled from the spec: `needs_separator_when_before(next)` is "true iff
concatenating a token of this type immediately followed by one of `next`
would change tokenization (e.g. ident followed by ident, number followed by
`%`, etc.)"; this is the standard CSS serialization-adjacency table of the
external tokenizer. -/
def TST.needs_separator_when_before (a b : TST) : Bool :=
  match a with
  | .Ident =>
    (b == .Ident) || (b == .Function) || (b == .UrlOrBadUrl) || (b == .DelimMinus) ||
    (b == .Number) || (b == .Percentage) || (b == .Dimension) || (b == .CDC) ||
    (b == .OpenParen)
  | .AtKeywordOrHash | .Dimension =>
    (b == .Ident) || (b == .Function) || (b == .UrlOrBadUrl) || (b == .DelimMinus) ||
    (b == .Number) || (b == .Percentage) || (b == .Dimension) || (b == .CDC)
  | .DelimHash | .DelimMinus =>
    (b == .Ident) || (b == .Function) || (b == .UrlOrBadUrl) || (b == .DelimMinus) ||
    (b == .Number) || (b == .Percentage) || (b == .Dimension)
  | .Number =>
    (b == .Ident) || (b == .Function) || (b == .UrlOrBadUrl) ||
    (b == .Number) || (b == .Percentage) || (b == .Dimension)
  | .DelimAt => (b == .Ident) || (b == .Function) || (b == .UrlOrBadUrl)
  | .DelimDotOrPlus => (b == .Number) || (b == .Percentage) || (b == .Dimension)
  | .DelimAssorted | .DelimSlash => (b == .DelimAssorted) || (b == .DelimSlash)
  | _ => false

/-- `TokenSerializationType::set_if_nothing` (returns the updated value). -/
def TST.set_if_nothing (self other : TST) : TST :=
  if self == .Nothing then other else self

/-- `pub type Name = Atom;` — an interned string, without the `--` prefix. -/
abbrev Name := String

/-- A CSS token as delivered by the external tokenizer, with nested blocks
(`Function`, `(`, `[`, `{`) holding their content as a sub-list, the way
`parse_nested_block` exposes them.  Atom tokens carry their raw source text.
Stray close-bracket tokens cannot be represented (they only occur in inputs
the declaration-value parser rejects). -/
inductive Tok where
  | ident (s : String)
  | func (name : String) (body : List Tok)
  | paren (body : List Tok)
  | square (body : List Tok)
  | curly (body : List Tok)
  | ws (s : String)
  | comment (s : String)
  | colon
  | semicolon
  | comma
  | num (s : String)
  | dim (s : String)
  | badString (s : String)
  | badUrl (s : String)

/-- `Token::serialization_type()` of the external tokenizer (modelled from
the spec's description of serialization classes). -/
def Tok.serialization_type : Tok → TST
  | .ident _ => .Ident
  | .func _ _ => .Function
  | .paren _ => .OpenParen
  | .square _ => .Other
  | .curly _ => .Other
  | .ws _ => .WhiteSpace
  | .comment _ => .DelimSlash
  | .colon => .Other
  | .semicolon => .Other
  | .comma => .Other
  | .num _ => .Number
  | .dim _ => .Dimension
  | .badString _ => .Other
  | .badUrl _ => .UrlOrBadUrl

/-- Raw source text of a non-container token (container tokens are handled
recursively by `serializeToks`; this function is never applied to them). -/
def Tok.atomText : Tok → String
  | .ident s => s
  | .func _ _ => ""
  | .paren _ => ""
  | .square _ => ""
  | .curly _ => ""
  | .ws s => s
  | .comment s => s
  | .colon => ":"
  | .semicolon => ";"
  | .comma => ","
  | .num s => s
  | .dim s => s
  | .badString s => s
  | .badUrl s => s

/-- Serialization type of the first token of a list (`nothing()` if empty);
used to model taking `input.position()` together with the serialization type
of the token found there. -/
def headTST : List Tok → TST
  | t :: _ => t.serialization_type
  | [] => .Nothing

mutual
/-- Structural size of a token (strictly dominates the sizes of its parts);
used as canonical fuel for the fuelled recursions below. -/
def tokSizeT : Tok → Nat
  | .func _ b => 1 + tokSizeL b
  | .paren b => 1 + tokSizeL b
  | .square b => 1 + tokSizeL b
  | .curly b => 1 + tokSizeL b
  | _ => 1
/-- Structural size of a token list. -/
def tokSizeL : List Tok → Nat
  | [] => 1
  | t :: r => 1 + tokSizeT t + tokSizeL r
end

/-- Reconstruction of the raw source text of a token list (fuelled). -/
def serializeToks : Nat → List Tok → String
  | _, [] => ""
  | 0, _ :: _ => ""
  | fuel+1, .func n body :: rest =>
    n ++ "(" ++ serializeToks fuel body ++ ")" ++ serializeToks fuel rest
  | fuel+1, .paren body :: rest =>
    "(" ++ serializeToks fuel body ++ ")" ++ serializeToks fuel rest
  | fuel+1, .square body :: rest =>
    "[" ++ serializeToks fuel body ++ "]" ++ serializeToks fuel rest
  | fuel+1, .curly body :: rest =>
    "\x7b" ++ serializeToks fuel body ++ "\x7d" ++ serializeToks fuel rest
  | fuel+1, t :: rest => t.atomText ++ serializeToks fuel rest

/-- Raw source text of a token list. -/
def serialize (l : List Tok) : String := serializeToks (tokSizeL l) l

/-- `Parser::next()` of the external tokenizer: skip whitespace and comments,
return the next token and the rest. -/
def nextNonWs : List Tok → Option (Tok × List Tok)
  | .ws _ :: r => nextNonWs r
  | .comment _ :: r => nextNonWs r
  | t :: r => some (t, r)
  | [] => none

/-- `Parser::next_including_whitespace()`: skip comments only. -/
def nextIncludingWs : List Tok → Option (Tok × List Tok)
  | .comment _ :: r => nextIncludingWs r
  | t :: r => some (t, r)
  | [] => none

/-- `Parser::expect_ident()`: `next()` must produce an ident token. -/
def expectIdentTok : List Tok → Option (String × List Tok)
  | l => match nextNonWs l with
    | some (.ident s, r) => some (s, r)
    | _ => none

/-- `Parser::expect_comma()` in a context where only success matters:
`next()` must produce a comma. -/
def expectCommaTok (l : List Tok) : Option (List Tok) :=
  match nextNonWs l with
  | some (.comma, r) => some r
  | _ => none

/-- `parse_name`: strip the `--` prefix, or fail.
Source: `if s.starts_with("--") { Ok(&s[2..]) } else { Err(()) }`. -/
def parse_name (s : String) : Option String :=
  match s.data with
  | '-' :: '-' :: rest => some (String.mk rest)
  | _ => none

/-- ASCII lowercase of a character. -/
def asciiLower (c : Char) : Char :=
  if 'A' ≤ c ∧ c ≤ 'Z' then Char.ofNat (c.toNat + 32) else c

/-- `str::eq_ignore_ascii_case`. -/
def eqIgnoreAsciiCase (a b : String) : Bool :=
  a.data.map asciiLower == b.data.map asciiLower

/-- `ComputedValue`: css text plus first/last token serialization types. -/
structure ComputedValue where
  css : String
  first_token_type : TST
  last_token_type : TST
deriving DecidableEq

/-- `ComputedValue::empty()`. -/
def ComputedValue.empty : ComputedValue :=
  { css := "", first_token_type := .Nothing, last_token_type := .Nothing }

/-- `ComputedValue::push`: record the first token type if not yet set, insert
the `/**/` separator when the previous last token would fuse with the
incoming first token, append the text, update the last token type. -/
def ComputedValue.push (self : ComputedValue) (css : String)
    (css_first_token_type css_last_token_type : TST) : ComputedValue :=
  { css := self.css ++
      (if self.last_token_type.needs_separator_when_before css_first_token_type
       then "/**/" else "") ++ css,
    first_token_type := self.first_token_type.set_if_nothing css_first_token_type,
    last_token_type := css_last_token_type }

/-- `ComputedValue::push_variable`. -/
def ComputedValue.push_variable (self : ComputedValue) (v : ComputedValue) : ComputedValue :=
  self.push v.css v.first_token_type v.last_token_type

/-- `ComputedValuesMap = HashMap<Name, ComputedValue>`, as an association
list (hash-map iteration order is unspecified; the list order stands for one
such order, and theorems quantify over all lists). -/
abbrev CMap := List (Name × ComputedValue)

/-- Hash-map lookup on an association list (first binding wins). -/
def alookup {α : Type} : List (Name × α) → Name → Option α
  | [], _ => none
  | e :: r, n => if e.1 = n then some e.2 else alookup r n

/-- Lookup through the `Option<Arc<HashMap>>` wrapper. -/
def lookupOptCM (cm : Option CMap) (n : Name) : Option ComputedValue :=
  cm.bind (fun m => alookup m n)

/-- `substitute_block`: replace `var()` functions in a token stream.

State passed along, mirroring the source:
* `pending`/`pendFirst` model the `position` pair: the text of the plain run
  accumulated since the run start (the source keeps a source position and
  slices the input; concatenating raw token texts yields the same string)
  and the serialization type recorded for the run start;
* `acc` is `partial_computed_value`;
* `last` is the local `last_token_type`;
* `st : σ` is the state threaded through the `substitute_one` callback `cb`
  (the callback returns its new state, and on success the last token type
  pushed together with the updated accumulator).

Returns the callback state together with, on success, the accumulator, the
final pending run and its first-token type (for the caller's trailing
`push_from`) and the final `last_token_type`.  The `set_position_at_next_iteration`
flag is modelled by resetting the pending run right away, seeded with the
serialization type of the next token (or `nothing` at end of input), which
is what the flag achieves one iteration later in the source. -/
def substitute_block {σ : Type} (cb : Name → ComputedValue → σ → σ × Option (TST × ComputedValue)) :
    Nat → List Tok → String → TST → ComputedValue → TST → σ →
    σ × Option (ComputedValue × String × TST × TST)
  | _, [], pending, pendFirst, acc, last, st => (st, some (acc, pending, pendFirst, last))
  | 0, _ :: _, _, _, _, _, st => (st, none)
  | fuel+1, .func fname body :: rest, pending, pendFirst, acc, last, st =>
    if eqIgnoreAsciiCase fname "var" then
      -- flush the plain run before the var() token
      let acc1 := acc.push pending pendFirst last
      match expectIdentTok body with
      | none => (st, none)
      | some (rawName, afterIdent) =>
        match parse_name rawName with
        | none => (st, none)
        | some name =>
          match cb name acc1 st with
          | (st1, some (lastV, acc2)) =>
            -- Ok: skip over the fallback; reseat the run at the next token
            substitute_block cb fuel rest "" (headTST rest) acc2 lastV st1
          | (st1, none) =>
            match expectCommaTok afterIdent with
            | none => (st1, none)
            | some afterComma =>
              match afterComma with
              | [] => (st1, none)
              | fb0 :: _ =>
                match substitute_block cb fuel afterComma "" fb0.serialization_type
                    acc1 .Nothing st1 with
                | (st2, none) => (st2, none)
                | (st2, some (acc3, pendFb, pfFb, lastFb)) =>
                  -- append what the fallback left behind, then continue
                  let acc4 := acc3.push pendFb pfFb lastFb
                  substitute_block cb fuel rest "" (headTST rest) acc4 lastFb st2
    else
      -- opaque nested block: recurse with the same plain run; the recursive
      -- call starts with a fresh local last_token_type = nothing()
      match substitute_block cb fuel body (pending ++ fname ++ "(") pendFirst acc .Nothing st with
      | (st1, none) => (st1, none)
      | (st1, some (acc1, pend1, pf1, _)) =>
        substitute_block cb fuel rest (pend1 ++ ")") pf1 acc1 .Other st1
  | fuel+1, .paren body :: rest, pending, pendFirst, acc, _last, st =>
    match substitute_block cb fuel body (pending ++ "(") pendFirst acc .Nothing st with
    | (st1, none) => (st1, none)
    | (st1, some (acc1, pend1, pf1, _)) =>
      substitute_block cb fuel rest (pend1 ++ ")") pf1 acc1 .Other st1
  | fuel+1, .square body :: rest, pending, pendFirst, acc, _last, st =>
    match substitute_block cb fuel body (pending ++ "[") pendFirst acc .Nothing st with
    | (st1, none) => (st1, none)
    | (st1, some (acc1, pend1, pf1, _)) =>
      substitute_block cb fuel rest (pend1 ++ "]") pf1 acc1 .Other st1
  | fuel+1, .curly body :: rest, pending, pendFirst, acc, _last, st =>
    match substitute_block cb fuel body (pending ++ "\x7b") pendFirst acc .Nothing st with
    | (st1, none) => (st1, none)
    | (st1, some (acc1, pend1, pf1, _)) =>
      substitute_block cb fuel rest (pend1 ++ "\x7d") pf1 acc1 .Other st1
  | fuel+1, t :: rest, pending, pendFirst, acc, _last, st =>
    substitute_block cb fuel rest (pending ++ t.atomText) pendFirst acc t.serialization_type st

/-- `substitute`: replace `var()` functions for a non-custom property.  The
callback looks names up in the computed map and pushes the value. -/
def substitute (toks : List Tok) (first_token_type : TST)
    (computed_values_map : Option CMap) : Option String :=
  let cb : Name → ComputedValue → Unit → Unit × Option (TST × ComputedValue) :=
    fun name substituted _ =>
      match lookupOptCM computed_values_map name with
      | some value => ((), some (value.last_token_type, substituted.push_variable value))
      | none => ((), none)
  match substitute_block cb (tokSizeL toks) toks "" first_token_type
      ComputedValue.empty .Nothing () with
  | (_, none) => none
  | (_, some (acc, pending, pendFirst, last)) =>
    some ((acc.push pending pendFirst last).css)

/-- Is this token a top-level `;` delimiter (ends a declaration value)? -/
def isSemiTok : Tok → Bool
  | .semicolon => true
  | _ => false

mutual
/-- `parse_declaration_value_block`: iterate all tokens (including whitespace
and comments), track the first (set once) and last (every token) token
serialization types, reject bad-url/bad-string (stray close brackets are not
representable in the token tree), treat a `var(` function via
`parse_var_function`, and recurse into any other nested block with the same
references sink.  The references sink is the `Some` case of the source's
`&mut Option<HashSet<Name>>` (which `parse` always passes as `Some`). -/
def parse_declaration_value_block :
    Nat → List Tok → TST → TST → List Name → Option (TST × TST × List Name)
  | _, [], first, last, refs => some (first, last, refs)
  | 0, _ :: _, _, _, _ => none
  | fuel+1, t :: rest, first, last, refs =>
    let first' := first.set_if_nothing t.serialization_type
    let last' := t.serialization_type
    match t with
    | .badUrl _ => none
    | .badString _ => none
    | .func fname body =>
      if eqIgnoreAsciiCase fname "var" then
        match parse_var_function fuel body refs with
        | none => none
        | some refs' => parse_declaration_value_block fuel rest first' last' refs'
      else
        match parse_declaration_value_block fuel body .Nothing .Nothing refs with
        | none => none
        | some (_, _, refs') => parse_declaration_value_block fuel rest first' last' refs'
    | .paren body =>
      match parse_declaration_value_block fuel body .Nothing .Nothing refs with
      | none => none
      | some (_, _, refs') => parse_declaration_value_block fuel rest first' last' refs'
    | .square body =>
      match parse_declaration_value_block fuel body .Nothing .Nothing refs with
      | none => none
      | some (_, _, refs') => parse_declaration_value_block fuel rest first' last' refs'
    | .curly body =>
      match parse_declaration_value_block fuel body .Nothing .Nothing refs with
      | none => none
      | some (_, _, refs') => parse_declaration_value_block fuel rest first' last' refs'
    | _ => parse_declaration_value_block fuel rest first' last' refs

/-- `parse_var_function`: expect an ident, strip `--`, optionally parse a
fallback after a comma, and insert the Name into the references sink.  The
enclosing `parse_nested_block` fails unless the whole block was consumed;
a failed `expect_comma` consumes one (non-comma) token. -/
def parse_var_function : Nat → List Tok → List Name → Option (List Name)
  | 0, _, _ => none
  | fuel+1, body, refs =>
    match expectIdentTok body with
    | none => none
    | some (rawName, afterIdent) =>
      match parse_name rawName with
      | none => none
      | some name =>
        match nextNonWs afterIdent with
        | some (.comma, fb) =>
          match parse_declaration_value fuel fb refs with
          | none => none
          | some (_, _, refs') => some (name :: refs')
        | some (_, leftover) =>
          match nextNonWs leftover with
          | none => some (name :: refs)
          | some _ => none
        | none => some (name :: refs)

/-- `parse_declaration_value`: parse until a top-level `!` or `;` and require
at least one token.  A top-level `;` ends the value early; in the nested
(fallback) use that leaves input unconsumed and the enclosing
`parse_nested_block` fails, which is what the `none` here stands for (`!`
delimiters are not representable in the token model; the top-level use in
`parse` splits the input itself). -/
def parse_declaration_value : Nat → List Tok → List Name → Option (TST × TST × List Name)
  | 0, _, _ => none
  | fuel+1, toks, refs =>
    if toks.any isSemiTok then none
    else
      match nextIncludingWs toks with
      | none => none
      | some _ => parse_declaration_value_block fuel toks .Nothing .Nothing refs
end

/-- `SpecifiedValue`: raw css text, its token stream (the source stores only
the text and re-tokenizes it in `substitute_one`; `css = serialize toks`),
first/last token serialization types, and the referenced custom-property
names. -/
structure SpecifiedValue where
  css : String
  toks : List Tok
  first_token_type : TST
  last_token_type : TST
  references : List Name

/-- `parse`: run the declaration-value grammar over the declaration value
(the tokens before any top-level `;`), collect references into a fresh set,
and record the consumed slice with its first/last token types. -/
def parse (toks : List Tok) : Option SpecifiedValue :=
  let val := toks.takeWhile fun t => !(isSemiTok t)
  match parse_declaration_value (tokSizeL val + 1) val [] with
  | none => none
  | some (first, last, refs) =>
    some { css := serialize val, toks := val, first_token_type := first,
           last_token_type := last, references := refs }

/-- The Name standing in first-argument position of a `var()` body: the
ident after optional whitespace/comments, with the `--` prefix stripped
(empty if the body does not start that way). -/
def firstArgList (body : List Tok) : List Name :=
  match expectIdentTok body with
  | some (s, _) =>
    match parse_name s with
    | some n => [n]
    | none => []
  | none => []

/-- Spec-side characterization for the references-completeness claim: the
Names that occur syntactically as the first argument of any `var()` function
anywhere in a token list, at any nesting depth, including inside fallbacks
and nested blocks. -/
def varRefs : List Tok → List Name
  | [] => []
  | .func fname body :: rest =>
    (if eqIgnoreAsciiCase fname "var" then firstArgList body else []) ++
      varRefs body ++ varRefs rest
  | .paren body :: rest => varRefs body ++ varRefs rest
  | .square body :: rest => varRefs body ++ varRefs rest
  | .curly body :: rest => varRefs body ++ varRefs rest
  | .ident _ :: rest => varRefs rest
  | .ws _ :: rest => varRefs rest
  | .comment _ :: rest => varRefs rest
  | .colon :: rest => varRefs rest
  | .semicolon :: rest => varRefs rest
  | .comma :: rest => varRefs rest
  | .num _ :: rest => varRefs rest
  | .dim _ :: rest => varRefs rest
  | .badString _ :: rest => varRefs rest
  | .badUrl _ :: rest => varRefs rest

/-- C5 counterexample input: `var(--a var(--b))` — the inner `var(--b)` sits
in the skipped non-fallback tail of the outer `var()` body. -/
def t6 : List Tok := [.func "var" [.ident "--a", .ws " ", .func "var" [.ident "--b"]]]

/-- `BorrowedSpecifiedValue`: like `SpecifiedValue` but with `references`
optional — `none` for entries seeded from the inherited computed map. -/
structure BorrowedSpecifiedValue where
  css : String
  toks : List Tok
  first_token_type : TST
  last_token_type : TST
  references : Option (List Name)

/-- The per-element specified map `HashMap<&Name, BorrowedSpecifiedValue>`,
as an association list. -/
abbrev SMap := List (Name × BorrowedSpecifiedValue)

/-- `substitute_one`: replace `var()` functions for one custom property,
memoized through `cmap` and `invalid`.  The fuel bounds the depth of the
name-recursion (the source recursion terminates only because `remove_cycles`
ran first; fuel exhaustion returns the failure default).  Returns
`(result, partial, computed map, invalid set)`. -/
def substitute_one : Nat → Name → BorrowedSpecifiedValue → SMap → Option CMap →
    Option ComputedValue → CMap → List Name →
    Option TST × Option ComputedValue × CMap × List Name
  | 0, _, _, _, _, par, cmap, invalid => (none, par, cmap, invalid)
  | fuel+1, name, specified_value, specified_values_map, inherited, par, cmap, invalid =>
    match alookup cmap name with
    | some computed_value =>
      (some computed_value.last_token_type,
       par.map fun p => p.push_variable computed_value, cmap, invalid)
    | none =>
      if name ∈ invalid then (none, par, cmap, invalid)
      else
        match specified_value.references with
        | some refs =>
          if refs.isEmpty then
            let computed : ComputedValue :=
              ⟨specified_value.css, specified_value.first_token_type,
               specified_value.last_token_type⟩
            (some computed.last_token_type,
             par.map fun p => p.push_variable computed,
             (name, computed) :: cmap, invalid)
          else
            match substitute_block (fun n pcv st =>
                match alookup specified_values_map n with
                | some other =>
                  match substitute_one fuel n other specified_values_map inherited
                      (some pcv) st.1 st.2 with
                  | (some t, some pcv', cm', inv') => ((cm', inv'), some (t, pcv'))
                  | (some _, none, cm', inv') => ((cm', inv'), none)
                  | (none, _, cm', inv') => ((cm', inv'), none)
                | none => (st, none))
                (tokSizeL specified_value.toks) specified_value.toks ""
                specified_value.first_token_type ComputedValue.empty .Nothing
                (cmap, invalid) with
            | ((cm', inv'), some (acc, pending, pendFirst, lastT)) =>
              let computed := acc.push pending pendFirst lastT
              (some computed.last_token_type,
               par.map fun p => p.push_variable computed,
               (name, computed) :: cm', inv')
            | ((cm', inv'), none) =>
              match inherited.bind fun i => alookup i name with
              | some inherited_value =>
                (some inherited_value.last_token_type,
                 par.map fun p => p.push_variable inherited_value,
                 (name, inherited_value) :: cm', inv')
              | none => (none, par, cm', name :: inv')
        | none =>
          let computed : ComputedValue :=
            ⟨specified_value.css, specified_value.first_token_type,
             specified_value.last_token_type⟩
          (some computed.last_token_type,
           par.map fun p => p.push_variable computed,
           (name, computed) :: cmap, invalid)

/-- The `substitute_one` callback closure passed to `substitute_block` by
`substitute_one` itself, threading `(computed map, invalid set)`. -/
def subCB (fuel : Nat) (specified_values_map : SMap) (inherited : Option CMap) :
    Name → ComputedValue → CMap × List Name →
    (CMap × List Name) × Option (TST × ComputedValue) :=
  fun n pcv st =>
    match alookup specified_values_map n with
    | some other =>
      match substitute_one fuel n other specified_values_map inherited
          (some pcv) st.1 st.2 with
      | (some t, some pcv', cm', inv') => ((cm', inv'), some (t, pcv'))
      | (some _, none, cm', inv') => ((cm', inv'), none)
      | (none, _, cm', inv') => ((cm', inv'), none)
    | none => (st, none)

/-- The substitution pass that `substitute_one` runs over a value's tokens
(`Parser::new(&specified_value.css)` followed by `substitute_block`). -/
def substituteBody (fuel : Nat) (specified_value : BorrowedSpecifiedValue)
    (specified_values_map : SMap) (inherited : Option CMap)
    (cmap : CMap) (invalid : List Name) :
    (CMap × List Name) × Option (ComputedValue × String × TST × TST) :=
  substitute_block (subCB fuel specified_values_map inherited)
    (tokSizeL specified_value.toks) specified_value.toks ""
    specified_value.first_token_type ComputedValue.empty .Nothing (cmap, invalid)

/-- `substitute_all`, iterating the entries of the specified map and
discarding each per-name result. -/
def substitute_all_aux : List (Name × BorrowedSpecifiedValue) → SMap → Option CMap →
    CMap → List Name → CMap × List Name
  | [], _, _, cmap, invalid => (cmap, invalid)
  | (name, value) :: rest, smap, inherited, cmap, invalid =>
    let r := substitute_one (smap.length + 1) name value smap inherited none cmap invalid
    substitute_all_aux rest smap inherited r.2.2.1 r.2.2.2

/-- `substitute_all`: replace `var()` functions for all custom properties;
names that are invalid at computed-value time are simply absent. -/
def substitute_all (specified_values_map : SMap) (inherited : Option CMap) : CMap :=
  (substitute_all_aux specified_values_map specified_values_map inherited [] []).1

/-- `Vec::iter().position(|&x| x == next)` on the DFS stack. -/
def idxOfN : List Name → Name → Option Nat
  | [], _ => none
  | x :: r, n => if x = n then some 0 else (idxOfN r n).map (· + 1)

/-- The recursive `walk` of `remove_cycles`, with its two phases as one
fuelled function: `.inl name` is `walk(map, name, ...)`, `.inr refs` is the
loop over a references set (the stack having already been pushed).  On
finding `next` in the stack at position `i`, every element of `stack[i..]`
is added to the removal set. -/
def walkAux : Nat → SMap → Name ⊕ List Name → List Name → List Name → List Name →
    List Name × List Name
  | 0, _, _, _, visited, to_remove => (visited, to_remove)
  | _+1, _, .inr [], _, visited, to_remove => (visited, to_remove)
  | fuel+1, map, .inl name, stack, visited, to_remove =>
    if name ∈ visited then (visited, to_remove)
    else
      match alookup map name with
      | none => (name :: visited, to_remove)
      | some value =>
        match value.references with
        | none => (name :: visited, to_remove)
        | some refs =>
          walkAux fuel map (.inr refs) (stack ++ [name]) (name :: visited) to_remove
  | fuel+1, map, .inr (next :: rest), stack, visited, to_remove =>
    match idxOfN stack next with
    | some i => walkAux fuel map (.inr rest) stack visited (stack.drop i ++ to_remove)
    | none =>
      let r := walkAux fuel map (.inl next) stack visited to_remove
      walkAux fuel map (.inr rest) stack r.1 r.2

/-- Weight of a map entry: one plus the size of its references set; the sum
of weights of unvisited entries bounds the remaining DFS work. -/
def entryWeight (e : Name × BorrowedSpecifiedValue) : Nat :=
  1 + (match e.2.references with | some l => l.length | none => 0)

/-- Total weight of the unvisited entries of a map. -/
def unvisitedWeight (map : SMap) (visited : List Name) : Nat :=
  ((map.filter fun e => !(visited.contains e.1)).map entryWeight).sum

/-- Total weight of a map; fuel for `remove_cycles`. -/
def mapWeight (map : SMap) : Nat := (map.map entryWeight).sum

/-- The `for name in map.keys()` loop of `remove_cycles`. -/
def walk_keys (fuel : Nat) (map : SMap) :
    List Name → List Name → List Name → List Name × List Name
  | [], visited, to_remove => (visited, to_remove)
  | k :: ks, visited, to_remove =>
    let r := walkAux fuel map (.inl k) [] visited to_remove
    walk_keys fuel map ks r.1 r.2

/-- The `to_remove` set computed by `remove_cycles`. -/
def removed_names (map : SMap) : List Name :=
  (walk_keys (mapWeight map + 1) map (map.map (·.1)) [] []).2

/-- `remove_cycles`: remove every name collected in `to_remove`. -/
def remove_cycles (map : SMap) : SMap :=
  map.filter fun e => !((removed_names map).contains e.1)

/-- Modelled from the spec: `DeclaredValue` comes from the `properties`
module, which is not under `src/`; per the spec it is the tagged union
`{Value(SpecifiedValue) | Initial | Inherit | WithVariables(…)}` where
`WithVariables` must never reach `cascade` (the source aborts on it via
`unreachable!`), so it is omitted here. -/
inductive DeclaredValue where
  | value (v : SpecifiedValue)
  | initial
  | inherit

/-- `cascade`: add one custom property declaration to the (lazily seeded)
specified map, first declaration for a name winning.  Seeding from the
inherited computed map carries no references (and no token stream: such an
entry is never re-tokenized, because `substitute_one` only parses values
whose references set is present and non-empty). -/
def cascade (custom_properties : Option SMap) (inherited : Option CMap)
    (seen : List Name) (name : Name) (specified_value : DeclaredValue) :
    Option SMap × List Name :=
  if name ∈ seen then (custom_properties, seen)
  else
    let m : SMap := match custom_properties with
      | some m => m
      | none => match inherited with
        | some i => i.map fun kv =>
            (kv.1, { css := kv.2.css, toks := [], first_token_type := kv.2.first_token_type,
                     last_token_type := kv.2.last_token_type,
                     references := none : BorrowedSpecifiedValue })
        | none => []
    let m : SMap := match specified_value with
      | .value v =>
        (name, { css := v.css, toks := v.toks, first_token_type := v.first_token_type,
                 last_token_type := v.last_token_type,
                 references := some v.references }) :: m.filter fun e => !(e.1 == name)
      | .initial => m.filter fun e => !(e.1 == name)
      | .inherit => m
    (some m, name :: seen)

/-- `finish_cascade`: prune cycles then substitute; with no declared
properties, share the inherited map. -/
def finish_cascade (specified_values_map : Option SMap) (inherited : Option CMap) :
    Option CMap :=
  match specified_values_map with
  | some map => some (substitute_all (remove_cycles map) inherited)
  | none => inherited

/-- Fold a stream of declarations through `cascade` (the caller feeds them in
cascade order, first wins). -/
def process_declarations (decls : List (Name × DeclaredValue)) (inherited : Option CMap) :
    Option SMap × List Name :=
  decls.foldl (fun st p => cascade st.1 inherited st.2 p.1 p.2) (none, [])

/-- The first declaration for a given name in a declaration stream. -/
def firstDecl : List (Name × DeclaredValue) → Name → Option DeclaredValue
  | [], _ => none
  | (m, d) :: r, n => if m = n then some d else firstDecl r n

/-- Does the reference graph of a specified map have an edge from `u` to
`v`?  (Boolean form, so that concrete instances are decidable.) -/
def edgeb (map : SMap) (u v : Name) : Bool :=
  match alookup map u with
  | some sv =>
    match sv.references with
    | some refs => refs.contains v
    | none => false
  | none => false

/-- Edge relation of the reference graph induced by the `references` sets:
keys point to each Name in their references set (when present). -/
def EdgeTo (map : SMap) (u v : Name) : Prop := edgeb map u v = true

/-- `Walks map u v l`: a nonempty edge path from `u` to `v` whose sequence of
sources (every vertex except the final `v`) is exactly `l`. -/
inductive Walks (map : SMap) : Name → Name → List Name → Prop where
  | single {u v : Name} : EdgeTo map u v → Walks map u v [u]
  | cons {u w v : Name} {l : List Name} :
      EdgeTo map u w → Walks map w v l → Walks map u v (u :: l)

/-- A name lies on some cycle of the reference graph. -/
def OnCycle (map : SMap) (r : Name) : Prop := ∃ v l, Walks map v v l ∧ r ∈ l

/-- "Contains no `var()` function at any nesting depth" (fuelled; the fuel
pattern matches the one of `substitute_block`). -/
def noVarF : Nat → List Tok → Bool
  | _, [] => true
  | 0, _ :: _ => false
  | fuel+1, .func fname body :: rest =>
    !(eqIgnoreAsciiCase fname "var") && noVarF fuel body && noVarF fuel rest
  | fuel+1, .paren body :: rest => noVarF fuel body && noVarF fuel rest
  | fuel+1, .square body :: rest => noVarF fuel body && noVarF fuel rest
  | fuel+1, .curly body :: rest => noVarF fuel body && noVarF fuel rest
  | fuel+1, _ :: rest => noVarF fuel rest

/-- A token list contains no `var()` function. -/
def noVar (l : List Tok) : Bool := noVarF (tokSizeL l) l

/-- The `last_token_type` value `substitute_block` ends with on a var-free
token list (nested blocks leave the close-paren type, atoms their own). -/
def lastA : Nat → List Tok → TST → TST
  | _, [], last => last
  | 0, _ :: _, last => last
  | fuel+1, .func _ _ :: rest, _ => lastA fuel rest .Other
  | fuel+1, .paren _ :: rest, _ => lastA fuel rest .Other
  | fuel+1, .square _ :: rest, _ => lastA fuel rest .Other
  | fuel+1, .curly _ :: rest, _ => lastA fuel rest .Other
  | fuel+1, t :: rest, _ => lastA fuel rest t.serialization_type

/-- A placeholder `SpecifiedValue` (used only to destructure `Option`s of
concrete, successful parses). -/
def dfltSV : SpecifiedValue := ⟨"", [], .Nothing, .Nothing, []⟩

/-- Scenario S4 input: the token stream of `"x: var(--a)var(--b);"`. -/
def toksS4 : List Tok :=
  [.ident "x", .colon, .ws " ", .func "var" [.ident "--a"],
   .func "var" [.ident "--b"], .semicolon]

/-- Scenario S4 cascade inputs: `--a: 1` and `--b: em`. -/
def declsS4 : List (Name × DeclaredValue) :=
  [("a", .value ((parse [.num "1"]).getD dfltSV)),
   ("b", .value ((parse [.ident "em"]).getD dfltSV))]

/-- Scenario S4 computed map, built from the cascade inputs. -/
def mapS4 : Option CMap := finish_cascade (process_declarations declsS4 none).1 none

/-- Scenario S3 input: the token stream of `"color: var(--x, red);"`. -/
def toksS3 : List Tok :=
  [.ident "color", .colon, .ws " ",
   .func "var" [.ident "--x", .comma, .ws " ", .ident "red"], .semicolon]

/-- A borrowed specified value with the given references and no token
content (cycle removal looks only at the references sets). -/
def svOf (refs : List Name) : BorrowedSpecifiedValue :=
  ⟨"", [], .Nothing, .Nothing, some refs⟩

/-- Counterexample map for cycle-removal minimality: the cycle
`f → c1 → c2 → f` shares nodes `f`, `c2` with the cycle `f → x → c2 → f`
that the DFS marks first; `c1` is then reached with `c2` already fully
visited and survives although it lies on a cycle. -/
def mC3 : SMap :=
  [("f", svOf ["x", "c1"]), ("x", svOf ["c2"]), ("c2", svOf ["f"]), ("c1", svOf ["c2"])]

/-- A one-entry map with a self-loop (`--a: var(--a)`). -/
def mSelfLoop : SMap := [("a", svOf ["a"])]

/-- C5 witness input: `var(--a, Var(--b))` — a fallback containing a nested,
case-varied var reference. -/
def t5 : List Tok :=
  [.func "var" [.ident "--a", .comma, .ws " ", .func "Var" [.ident "--b"]]]

/-- A borrowed specified value whose css is `var(--x)`: one reference to a
missing variable and no fallback, so substitution fails. -/
def svY : BorrowedSpecifiedValue :=
  ⟨"var(--x)", [.func "var" [.ident "--x"]], .Function, .Other, some ["x"]⟩

/-- C6 witness specified map: `--y: var(--x)` with `--x` missing. -/
def smapY : SMap := [("y", svY)]

/-- C6 witness inherited value for `--y`. -/
def ivY : ComputedValue := ⟨"blue", .Ident, .Ident⟩

/-- C7 witness parent computed map: `--a: red`. -/
def pmC7 : CMap := [("a", ⟨"red", .Ident, .Ident⟩)]

/-- C7 witness child declarations: `--a: initial` first. -/
def declsC7 : List (Name × DeclaredValue) := [("a", .initial)]

/-- DFS invariant for `remove_cycles`: every finished node (visited and not
on the current stack) has, on each of its cycles, at least one node already
collected for removal. -/
def MarkedCycles (map : SMap) (stack visited toRem : List Name) : Prop :=
  ∀ v, v ∈ visited → v ∉ stack → ∀ l, Walks map v v l → ∃ r, r ∈ l ∧ r ∈ toRem

/-! ## Supporting lemmas -/

theorem string_eq_of_data {s t : String} (h : s.data = t.data) : s = t := by
  cases s; cases t; simp_all

theorem contains_iff_mem (l : List Name) (a : Name) : l.contains a = true ↔ a ∈ l :=
  List.elem_iff

/-! ## C8 — name round-trip -/

/-- C8: for every identifier suffix `X` (the empty string included),
`parse_name ("--" ++ X)` succeeds with exactly `X`; and `parse_name`
fails on every string that does not begin with `--` (expressed as: the
first two characters are not `-`, `-`). -/
theorem C8_parse_name_roundtrip :
    (∀ X : String, parse_name ("--" ++ X) = some X) ∧
    (∀ s : String, s.data.take 2 ≠ ['-', '-'] → parse_name s = none) := by
  constructor
  · intro X
    have h : ("--" ++ X).data = '-' :: '-' :: X.data := by simp [String.data_append]
    unfold parse_name
    rw [h]
    rfl
  · intro s hs
    unfold parse_name
    split
    · rename_i rest heq
      exact absurd (by rw [heq]; rfl) hs
    · rfl

/-- Witness for C8 at concrete inputs. -/
theorem C8_parse_name_roundtrip_witness :
    parse_name "--abc" = some "abc" ∧ parse_name "abc" = none := by
  refine ⟨?_, ?_⟩
  · have h := C8_parse_name_roundtrip.1 "abc"
    simpa using h
  · exact C8_parse_name_roundtrip.2 "abc" (by decide)

/-! ## C1 — scenario S4 separator insertion -/

/-- C1 counterexample: with the computed map built from the cascade inputs
`--a: 1`, `--b: em` (which does bind `--a` to `"1"` and `--b` to `"em"`),
`substitute` on `"x: var(--a)var(--b);"` does not return `"x: 1/**/em;"`:
the code inserts an empty comment twice, not once. -/
theorem C1_counterexample :
    lookupOptCM mapS4 "a" = some ⟨"1", .Number, .Number⟩ ∧
    lookupOptCM mapS4 "b" = some ⟨"em", .Ident, .Ident⟩ ∧
    substitute toksS4 .Ident mapS4 ≠ some "x: 1/**/em;" := by decide

/-- C1 amended: the substitution of `"x: var(--a)var(--b);"` against the map
built from `--a: 1`, `--b: em` returns `Ok("x: 1/**//**/em;")`: one empty
comment is inserted when the (empty) plain run between the two `var()`
functions is flushed — its recorded first-token type is the `Function` type
of the second `var(` token, after which a `1` would fuse — and a second one
when the substituted fragment `em` is pushed after `1`.  The two fragments
still do not fuse; the text inserted between them is `/**//**/`, not a
single `/**/`. -/
theorem C1_amended_separator :
    substitute toksS4 .Ident mapS4 = some "x: 1/**//**/em;" := by decide

/-! ## C4 — scenario S3 fallback on missing -/

/-- C4 counterexample: with no binding for `--x` (here: no map at all),
`substitute("color: var(--x, red);", …)` does not return `"color: red;"`:
the fallback is taken starting right after the comma, so its leading
whitespace is kept and the result carries two spaces. -/
theorem C4_counterexample :
    substitute toksS3 .Ident none ≠ some "color: red;" := by decide

/-- C4 amended: for every computed map without an entry named `x`,
`substitute("color: var(--x, red);", …, map)` returns
`Ok("color:  red;")` — the fallback after the comma is substituted in place
of the whole `var()` function, including the fallback's leading whitespace
(hence two spaces: one from the source before `var(`, one from after the
comma). -/
theorem C4_amended_fallback (cm : Option CMap) (h : lookupOptCM cm "x" = none) :
    substitute toksS3 .Ident cm = some "color:  red;" := by
  simp +decide [substitute, toksS3, substitute_block, tokSizeL, tokSizeT,
    expectIdentTok, expectCommaTok, nextNonWs, parse_name, headTST,
    Tok.serialization_type, Tok.atomText, ComputedValue.push,
    ComputedValue.push_variable, ComputedValue.empty,
    TST.needs_separator_when_before, TST.set_if_nothing, h]

/-- Witness for C4 at the empty computed map. -/
theorem C4_amended_fallback_witness :
    substitute toksS3 .Ident (some []) = some "color:  red;" :=
  C4_amended_fallback (some []) (by decide)

/-! ## C10 — `var` matched ASCII case-insensitively -/

/-- C10: a function token whose name equals `"var"` up to ASCII case is
treated as a variable reference by both the declaration-value parser (its
name is collected into `references`) and the substitution engine (it is
substituted), rather than as an opaque nested block. -/
theorem C10_var_case_insensitive (fname : String)
    (h : eqIgnoreAsciiCase fname "var" = true) :
    ((parse [.func fname [.ident "--a"]]).map (fun sv => sv.references) = some ["a"]) ∧
    substitute [.func fname [.ident "--a"]] .Function
      (some [("a", ⟨"1", .Number, .Number⟩)]) = some "1" := by
  constructor
  · simp +decide [parse, parse_declaration_value, parse_declaration_value_block,
      parse_var_function, tokSizeL, tokSizeT, isSemiTok, nextIncludingWs,
      expectIdentTok, nextNonWs, parse_name, Tok.serialization_type,
      TST.set_if_nothing, h]
  · simp +decide [substitute, substitute_block, tokSizeL, tokSizeT,
      expectIdentTok, nextNonWs, parse_name, lookupOptCM, alookup, headTST,
      Tok.serialization_type, Tok.atomText, ComputedValue.push,
      ComputedValue.push_variable, ComputedValue.empty,
      TST.needs_separator_when_before, TST.set_if_nothing, h]

/-- Witness for C10 at `VAR(--a)`. -/
theorem C10_var_case_insensitive_witness :
    ((parse [.func "VAR" [.ident "--a"]]).map (fun sv => sv.references) = some ["a"]) ∧
    substitute [.func "VAR" [.ident "--a"]] .Function
      (some [("a", ⟨"1", .Number, .Number⟩)]) = some "1" :=
  C10_var_case_insensitive "VAR" (by decide)

/-! ## C9 — idempotence without `var()` -/

theorem substitute_block_novar {σ : Type}
    (cb : Name → ComputedValue → σ → σ × Option (TST × ComputedValue)) :
    ∀ fuel toks pending pf acc last (st : σ), noVarF fuel toks = true →
    substitute_block cb fuel toks pending pf acc last st =
      (st, some (acc, pending ++ serializeToks fuel toks, pf, lastA fuel toks last)) := by
  intro fuel
  induction fuel with
  | zero =>
    intro toks pending pf acc last st h
    cases toks with
    | nil => simp [substitute_block, serializeToks, lastA]
    | cons t r => simp [noVarF] at h
  | succ fuel ih =>
    intro toks pending pf acc last st h
    cases toks with
    | nil => simp [substitute_block, serializeToks, lastA]
    | cons t r =>
      cases t with
      | func fname body =>
        simp only [noVarF, Bool.and_eq_true, Bool.not_eq_true'] at h
        obtain ⟨⟨hv, hb⟩, hr⟩ := h
        simp [substitute_block, hv, serializeToks, lastA, ih, hb, hr, String.append_assoc]
      | paren body =>
        simp only [noVarF, Bool.and_eq_true] at h
        obtain ⟨hb, hr⟩ := h
        simp [substitute_block, serializeToks, lastA, ih, hb, hr, String.append_assoc]
      | square body =>
        simp only [noVarF, Bool.and_eq_true] at h
        obtain ⟨hb, hr⟩ := h
        simp [substitute_block, serializeToks, lastA, ih, hb, hr, String.append_assoc]
      | curly body =>
        simp only [noVarF, Bool.and_eq_true] at h
        obtain ⟨hb, hr⟩ := h
        simp [substitute_block, serializeToks, lastA, ih, hb, hr, String.append_assoc]
      | ident s =>
        simp [noVarF] at h
        simp [substitute_block, serializeToks, lastA, Tok.atomText,
          Tok.serialization_type, ih, h, String.append_assoc]
      | ws s =>
        simp [noVarF] at h
        simp [substitute_block, serializeToks, lastA, Tok.atomText,
          Tok.serialization_type, ih, h, String.append_assoc]
      | comment s =>
        simp [noVarF] at h
        simp [substitute_block, serializeToks, lastA, Tok.atomText,
          Tok.serialization_type, ih, h, String.append_assoc]
      | colon =>
        simp [noVarF] at h
        simp [substitute_block, serializeToks, lastA, Tok.atomText,
          Tok.serialization_type, ih, h, String.append_assoc]
      | semicolon =>
        simp [noVarF] at h
        simp [substitute_block, serializeToks, lastA, Tok.atomText,
          Tok.serialization_type, ih, h, String.append_assoc]
      | comma =>
        simp [noVarF] at h
        simp [substitute_block, serializeToks, lastA, Tok.atomText,
          Tok.serialization_type, ih, h, String.append_assoc]
      | num s =>
        simp [noVarF] at h
        simp [substitute_block, serializeToks, lastA, Tok.atomText,
          Tok.serialization_type, ih, h, String.append_assoc]
      | dim s =>
        simp [noVarF] at h
        simp [substitute_block, serializeToks, lastA, Tok.atomText,
          Tok.serialization_type, ih, h, String.append_assoc]
      | badString s =>
        simp [noVarF] at h
        simp [substitute_block, serializeToks, lastA, Tok.atomText,
          Tok.serialization_type, ih, h, String.append_assoc]
      | badUrl s =>
        simp [noVarF] at h
        simp [substitute_block, serializeToks, lastA, Tok.atomText,
          Tok.serialization_type, ih, h, String.append_assoc]

/-- C9: for every input (token stream) containing no `var()` function at any
nesting depth and every computed map, `substitute` returns the input
unchanged (byte-identical serialization). -/
theorem C9_idempotent_without_var (toks : List Tok) (h : noVar toks = true)
    (first_token_type : TST) (cm : Option CMap) :
    substitute toks first_token_type cm = some (serialize toks) := by
  simp only [substitute, serialize]
  rw [substitute_block_novar _ _ _ _ _ _ _ _ h]
  simp [ComputedValue.push, ComputedValue.empty, TST.needs_separator_when_before,
    TST.set_if_nothing]

/-- Witness for C9 at the token stream of `"width: 10px;"`. -/
theorem C9_idempotent_without_var_witness :
    substitute [.ident "width", .colon, .ws " ", .dim "10px", .semicolon] .Ident none =
      some "width: 10px;" := by
  rw [C9_idempotent_without_var
    [.ident "width", .colon, .ws " ", .dim "10px", .semicolon] (by decide) .Ident none]
  decide

/-! ## Graph lemmas for cycle removal -/

theorem walks_shape {map : SMap} {u v : Name} {l : List Name}
    (h : Walks map u v l) : ∃ l', l = u :: l' := by
  cases h with
  | single _ => exact ⟨[], rfl⟩
  | cons _ _ => exact ⟨_, rfl⟩

theorem walks_append_edge {map : SMap} {u v z : Name} {l : List Name}
    (h : Walks map u v l) (he : EdgeTo map v z) : Walks map u z (l ++ [v]) := by
  induction h with
  | single h1 => exact .cons h1 (.single he)
  | cons h1 _ ih => exact .cons h1 (ih he)

theorem walks_cycle_first_edge {map : SMap} {x : Name} {l : List Name}
    (h : Walks map x x l) :
    ∃ w l₂, l = x :: l₂ ∧ EdgeTo map x w ∧ ((w = x ∧ l₂ = []) ∨ Walks map w x l₂) := by
  cases h with
  | single h1 => exact ⟨x, [], rfl, h1, .inl ⟨rfl, rfl⟩⟩
  | cons h1 h2 => exact ⟨_, _, rfl, h1, .inr h2⟩

theorem edge_of_refs {map : SMap} {u w : Name} {sv : BorrowedSpecifiedValue}
    {refs : List Name} (halk : alookup map u = some sv)
    (href : sv.references = some refs) (hw : w ∈ refs) : EdgeTo map u w := by
  simp only [EdgeTo, edgeb, halk, href]
  exact (contains_iff_mem refs w).2 hw

theorem refs_of_edge {map : SMap} {u w : Name} {sv : BorrowedSpecifiedValue}
    {refs : List Name} (halk : alookup map u = some sv)
    (href : sv.references = some refs) (he : EdgeTo map u w) : w ∈ refs := by
  simp only [EdgeTo, edgeb, halk, href] at he
  exact (contains_iff_mem refs w).1 he

theorem edge_source_lookup {map : SMap} {u w : Name} (he : EdgeTo map u w) :
    ∃ sv refs, alookup map u = some sv ∧ sv.references = some refs ∧ w ∈ refs := by
  unfold EdgeTo edgeb at he
  cases halk : alookup map u with
  | none => simp [halk] at he
  | some sv =>
    cases href : sv.references with
    | none => simp [halk, href] at he
    | some refs =>
      simp only [halk, href] at he
      exact ⟨sv, refs, rfl, href, (contains_iff_mem refs w).1 he⟩

theorem idxOfN_drop {l : List Name} {n : Name} :
    ∀ {i : Nat}, idxOfN l n = some i → ∃ t, l.drop i = n :: t := by
  induction l with
  | nil => intro i h; simp [idxOfN] at h
  | cons x r ih =>
    intro i h
    by_cases hx : x = n
    · simp [idxOfN, hx] at h
      subst h
      exact ⟨r, by simp [hx]⟩
    · simp [idxOfN, hx] at h
      obtain ⟨j, hj, hij⟩ := h
      subst hij
      simpa using ih hj

theorem idxOfN_none {l : List Name} {n : Name} (h : idxOfN l n = none) : n ∉ l := by
  induction l with
  | nil => simp
  | cons x r ih =>
    by_cases hx : x = n
    · simp [idxOfN, hx] at h
    · simp [idxOfN, hx] at h
      simp [ih h, Ne.symm hx]

theorem chain'_drop {R : Name → Name → Prop} :
    ∀ (i : Nat) (l : List Name), List.Chain' R l → List.Chain' R (l.drop i) := by
  intro i
  induction i with
  | zero => intro l h; simpa using h
  | succ i ih =>
    intro l h
    cases l with
    | nil => simp
    | cons x r => exact ih r (List.Chain'.tail h)

theorem getLast?_drop_eq : ∀ (l : List Name) (i : Nat), l.drop i ≠ [] →
    (l.drop i).getLast? = l.getLast? := by
  intro l
  induction l with
  | nil => intro i h; simp at h
  | cons x r ih =>
    intro i h
    cases i with
    | zero => rfl
    | succ i =>
      simp only [List.drop_succ_cons] at h ⊢
      rw [ih i h]
      cases r with
      | nil => simp at h
      | cons y t => simp [List.getLast?_cons_cons]

theorem alookup_filter_key {α : Type} (q : Name → Bool) :
    ∀ (l : List (Name × α)) (n : Name) (v : α),
    alookup (l.filter fun e => q e.1) n = some v →
    alookup l n = some v ∧ q n = true := by
  intro l
  induction l with
  | nil => intro n v h; simp [alookup] at h
  | cons e r ih =>
    intro n v h
    by_cases hq : q e.1
    · rw [List.filter_cons_of_pos (by simpa using hq)] at h
      by_cases hn : e.1 = n
      · simp [alookup, hn] at h ⊢
        exact ⟨h, hn ▸ hq⟩
      · simp [alookup, hn] at h ⊢
        exact ih n v h
    · rw [List.filter_cons_of_neg (by simpa using hq)] at h
      have ⟨h1, h2⟩ := ih n v h
      by_cases hn : e.1 = n
      · exact absurd (hn ▸ h2) (by simpa using hq)
      · simpa [alookup, hn] using ⟨h1, h2⟩

theorem edge_remove_cycles {map : SMap} {u w : Name}
    (he : EdgeTo (remove_cycles map) u w) :
    EdgeTo map u w ∧ u ∉ removed_names map := by
  obtain ⟨sv, refs, halk, href, hwr⟩ := edge_source_lookup he
  have := alookup_filter_key (fun k => !((removed_names map).contains k)) map u sv halk
  refine ⟨edge_of_refs this.1 href hwr, ?_⟩
  have h2 := this.2
  simp only [Bool.not_eq_true'] at h2
  intro hmem
  rw [(contains_iff_mem _ _).2 hmem] at h2
  cases h2

theorem walks_of_chain {map : SMap} :
    ∀ (t : List Name) (x z : Name), List.Chain' (EdgeTo map) (x :: t) →
    (∀ y, (x :: t).getLast? = some y → EdgeTo map y z) → Walks map x z (x :: t) := by
  intro t
  induction t with
  | nil =>
    intro x z _ hlast
    exact .single (hlast x rfl)
  | cons y t ih =>
    intro x z hchain hlast
    have h1 : EdgeTo map x y := (List.chain'_cons.1 hchain).1
    have h2 : List.Chain' (EdgeTo map) (y :: t) := (List.chain'_cons.1 hchain).2
    refine .cons h1 (ih y z h2 ?_)
    intro w hw
    exact hlast w (by rw [List.getLast?_cons_cons]; exact hw)

theorem mark_master (map : SMap) :
    ∀ (fuel : Nat) (job : Name ⊕ List Name) (stack visited toRem : List Name),
    (∀ r ∈ toRem, OnCycle map r) →
    List.Chain' (EdgeTo map) stack →
    (match job with
     | .inl name => ∀ y, stack.getLast? = some y → EdgeTo map y name
     | .inr refs => ∀ w ∈ refs, ∃ x, stack.getLast? = some x ∧ EdgeTo map x w) →
    ∀ r ∈ (walkAux fuel map job stack visited toRem).2, OnCycle map r := by
  intro fuel
  induction fuel with
  | zero =>
    intro job stack visited toRem hR _ _ r hr
    exact hR r (by simpa [walkAux] using hr)
  | succ fuel ih =>
    intro job stack visited toRem hR hchain hjob
    cases job with
    | inl name =>
      by_cases hv : name ∈ visited
      · intro r hr
        exact hR r (by simpa [walkAux, hv] using hr)
      · cases halk : alookup map name with
        | none =>
          intro r hr
          exact hR r (by simpa [walkAux, hv, halk] using hr)
        | some value =>
          cases href : value.references with
          | none =>
            intro r hr
            exact hR r (by simpa [walkAux, hv, halk, href] using hr)
          | some refs =>
            intro r hr
            rw [show walkAux (fuel+1) map (.inl name) stack visited toRem =
                walkAux fuel map (.inr refs) (stack ++ [name]) (name :: visited) toRem
                from by simp [walkAux, hv, halk, href]] at hr
            refine ih (.inr refs) (stack ++ [name]) (name :: visited) toRem hR ?_ ?_ r hr
            · rw [List.chain'_append]
              refine ⟨hchain, List.chain'_singleton name, ?_⟩
              intro y hy z hz
              simp only [List.head?_cons, Option.mem_def, Option.some.injEq] at hz
              subst hz
              exact hjob y hy
            · intro w hw
              refine ⟨name, ?_, edge_of_refs halk href hw⟩
              simp [List.getLast?_concat]
    | inr refs =>
      cases refs with
      | nil =>
        intro r hr
        exact hR r (by simpa [walkAux] using hr)
      | cons next rest =>
        cases hidx : idxOfN stack next with
        | some i =>
          intro r hr
          rw [show walkAux (fuel+1) map (.inr (next :: rest)) stack visited toRem =
              walkAux fuel map (.inr rest) stack visited (stack.drop i ++ toRem)
              from by simp [walkAux, hidx]] at hr
          refine ih (.inr rest) stack visited (stack.drop i ++ toRem) ?_ hchain
            (fun w hw => hjob w (List.mem_cons_of_mem next hw)) r hr
          intro r' hr'
          rcases List.mem_append.1 hr' with hmem | hmem
          · -- r' lies on the cycle stack[i..] closed by the edge last → next
            obtain ⟨t, hdrop⟩ := idxOfN_drop hidx
            have hne : stack.drop i ≠ [] := by rw [hdrop]; simp
            obtain ⟨x, hx, hex⟩ := hjob next (List.mem_cons_self next rest)
            have hchain' : List.Chain' (EdgeTo map) (next :: t) := by
              rw [← hdrop]; exact chain'_drop i stack hchain
            have hlast : (next :: t).getLast? = some x := by
              rw [← hdrop, getLast?_drop_eq stack i hne]; exact hx
            have hwalk : Walks map next next (next :: t) := by
              refine walks_of_chain t next next hchain' ?_
              intro y hy
              rw [hlast] at hy
              cases hy
              exact hex
            exact ⟨next, next :: t, hwalk, by rw [← hdrop]; exact hmem⟩
          · exact hR r' hmem
        | none =>
          intro r hr
          rw [show walkAux (fuel+1) map (.inr (next :: rest)) stack visited toRem =
              (walkAux fuel map (.inr rest) stack
                (walkAux fuel map (.inl next) stack visited toRem).1
                (walkAux fuel map (.inl next) stack visited toRem).2)
              from by simp [walkAux, hidx]] at hr
          refine ih (.inr rest) stack _ _ ?_ hchain
            (fun w hw => hjob w (List.mem_cons_of_mem next hw)) r hr
          refine ih (.inl next) stack visited toRem hR hchain ?_
          intro y hy
          obtain ⟨x, hx, hex⟩ := hjob next (List.mem_cons_self next rest)
          rw [hx] at hy
          cases hy
          exact hex

theorem walk_keys_sound (map : SMap) (fuel : Nat) :
    ∀ (ks visited toRem : List Name),
    (∀ r ∈ toRem, OnCycle map r) →
    ∀ r ∈ (walk_keys fuel map ks visited toRem).2, OnCycle map r := by
  intro ks
  induction ks with
  | nil =>
    intro visited toRem hR r hr
    exact hR r (by simpa [walk_keys] using hr)
  | cons k ks ih =>
    intro visited toRem hR r hr
    rw [show walk_keys fuel map (k :: ks) visited toRem =
        walk_keys fuel map ks (walkAux fuel map (.inl k) [] visited toRem).1
          (walkAux fuel map (.inl k) [] visited toRem).2
        from by simp [walk_keys]] at hr
    refine ih _ _ ?_ r hr
    refine mark_master map fuel (.inl k) [] visited toRem hR (by simp) ?_
    intro y hy
    simp at hy

/-! ## C3 — cycle removal minimality -/

/-- C3 counterexample: in `mC3` the variable `c1` lies on the cycle
`c1 → c2 → f → c1` (so it belongs to a strongly connected component of size
3), yet `remove_cycles` does not remove it: the DFS first marks the cycle
`f → x → c2 → f`, after which `c2` is already fully visited, so the walk
from `c1` stops there without marking `c1`.  The removed set is therefore
not equal to the union of the SCCs of size ≥ 2 and the self-loops. -/
theorem C3_counterexample :
    Walks mC3 "c1" "c1" ["c1", "c2", "f"] ∧
    "c1" ∉ removed_names mC3 ∧
    (alookup (remove_cycles mC3) "c1").isSome = true := by
  refine ⟨?_, by decide, by decide⟩
  refine .cons ?_ (.cons ?_ (.single ?_)) <;> (unfold EdgeTo; decide)

/-- C3 amended: `remove_cycles` removes no variable that lies on no cycle —
every name it collects for removal lies on a cycle of the reference graph
(equivalently, the removed set is contained in the union of the strongly
connected components of size at least 2 and the self-loops).  The reverse
inclusion claimed by the spec can fail (see the counterexample). -/
theorem C3_amended_removed_on_cycle (map : SMap) (r : Name)
    (hr : r ∈ removed_names map) : OnCycle map r := by
  unfold removed_names at hr
  exact walk_keys_sound map (mapWeight map + 1) (map.map fun e => e.1) [] []
    (by intro r' hr'; cases hr') r hr

/-- Witness for the amended C3 on a self-loop map. -/
theorem C3_amended_removed_on_cycle_witness : OnCycle mSelfLoop "a" :=
  C3_amended_removed_on_cycle mSelfLoop "a" (by decide)

/-! ## C2 — cycle removal soundness -/

theorem sum_filter_le {α : Type} (f : α → Nat) (p q : α → Bool)
    (h : ∀ a, p a = true → q a = true) :
    ∀ l : List α, ((l.filter p).map f).sum ≤ ((l.filter q).map f).sum := by
  intro l
  induction l with
  | nil => simp
  | cons a r ih =>
    by_cases hp : p a
    · rw [List.filter_cons_of_pos hp, List.filter_cons_of_pos (h a hp)]
      simpa using ih
    · rw [List.filter_cons_of_neg (by simpa using hp)]
      by_cases hq : q a
      · rw [List.filter_cons_of_pos hq]
        simp only [List.map_cons, List.sum_cons]
        omega
      · rw [List.filter_cons_of_neg (by simpa using hq)]
        exact ih

theorem contains_false_iff (l : List Name) (a : Name) : l.contains a = false ↔ a ∉ l := by
  constructor
  · intro h hmem
    rw [(contains_iff_mem l a).2 hmem] at h
    cases h
  · intro h
    rcases hc : l.contains a with _ | _
    · rfl
    · exact absurd ((contains_iff_mem l a).1 hc) h

theorem contains_cons_ne {l : List Name} {a n : Name} (h : a ≠ n) :
    (n :: l).contains a = l.contains a := by
  rcases hc : l.contains a with _ | _
  · exact (contains_false_iff _ _).2 (by
      simp only [List.mem_cons, not_or]
      exact ⟨h, (contains_false_iff _ _).1 hc⟩)
  · exact (contains_iff_mem _ _).2 (List.mem_cons_of_mem _ ((contains_iff_mem _ _).1 hc))

theorem uw_antitone (map : SMap) {visited visited' : List Name}
    (h : visited ⊆ visited') :
    unvisitedWeight map visited' ≤ unvisitedWeight map visited := by
  refine sum_filter_le entryWeight _ _ ?_ map
  intro e he
  simp only [Bool.not_eq_true'] at he ⊢
  rw [contains_false_iff] at he ⊢
  exact fun hmem => he (h hmem)

theorem uw_le_mapWeight (map : SMap) (visited : List Name) :
    unvisitedWeight map visited ≤ mapWeight map := by
  unfold unvisitedWeight mapWeight
  have := sum_filter_le entryWeight (fun e => !(visited.contains e.1)) (fun _ => true)
    (fun _ _ => rfl) map
  simpa using this

theorem uw_insert {map : SMap} {visited : List Name} {name : Name}
    {sv : BorrowedSpecifiedValue} {rl : List Name}
    (hnd : (map.map fun e => e.1).Nodup)
    (halk : alookup map name = some sv) (href : sv.references = some rl)
    (hv : name ∉ visited) :
    unvisitedWeight map visited = unvisitedWeight map (name :: visited) + (1 + rl.length) := by
  induction map with
  | nil => simp [alookup] at halk
  | cons e rest ih =>
    simp only [List.map_cons, List.nodup_cons] at hnd
    obtain ⟨hnotin, hnd'⟩ := hnd
    by_cases hen : e.1 = name
    · unfold alookup at halk
      rw [if_pos hen] at halk
      have hsv : e.2 = sv := by injection halk
      have hfilters : rest.filter (fun e' => !((name :: visited).contains e'.1)) =
          rest.filter (fun e' => !(visited.contains e'.1)) := by
        apply List.filter_congr
        intro e' he'
        have hne : e'.1 ≠ name := fun hcontra =>
          hnotin (hen ▸ hcontra ▸ List.mem_map_of_mem (fun x => x.1) he')
        rw [contains_cons_ne hne]
      unfold unvisitedWeight
      rw [List.filter_cons_of_pos (by
            simp only [Bool.not_eq_true']
            exact (contains_false_iff _ _).2 (hen ▸ hv)),
          List.filter_cons_of_neg (by
            simp only [Bool.not_eq_true, Bool.not_eq_false']
            exact (contains_iff_mem _ _).2 (hen ▸ List.mem_cons_self name visited)),
          hfilters]
      simp only [List.map_cons, List.sum_cons]
      have hwe : entryWeight e = 1 + rl.length := by
        simp [entryWeight, hsv, href]
      omega
    · have halk' : alookup rest name = some sv := by
        unfold alookup at halk
        rwa [if_neg hen] at halk
      have heq := ih hnd' halk'
      unfold unvisitedWeight at heq ⊢
      have hsame : ((name :: visited).contains e.1) = (visited.contains e.1) :=
        contains_cons_ne hen
      rcases hc : visited.contains e.1 with _ | _
      · have hf1 : (e :: rest).filter (fun e' => !(visited.contains e'.1)) =
            e :: rest.filter (fun e' => !(visited.contains e'.1)) :=
          List.filter_cons_of_pos (by simp only [Bool.not_eq_true', hc])
        have hf2 : (e :: rest).filter (fun e' => !((name :: visited).contains e'.1)) =
            e :: rest.filter (fun e' => !((name :: visited).contains e'.1)) :=
          List.filter_cons_of_pos (by simp only [Bool.not_eq_true', hsame, hc])
        rw [hf1, hf2]
        simp only [List.map_cons, List.sum_cons]
        omega
      · have hf1 : (e :: rest).filter (fun e' => !(visited.contains e'.1)) =
            rest.filter (fun e' => !(visited.contains e'.1)) :=
          List.filter_cons_of_neg (by simp only [hc]; simp)
        have hf2 : (e :: rest).filter (fun e' => !((name :: visited).contains e'.1)) =
            rest.filter (fun e' => !((name :: visited).contains e'.1)) :=
          List.filter_cons_of_neg (by simp only [hsame, hc]; simp)
        rw [hf1, hf2]
        exact heq

theorem walk_main (map : SMap) (hnd : (map.map fun e => e.1).Nodup) :
    ∀ fuel : Nat,
    (∀ (name : Name) (stack visited toRem : List Name),
      unvisitedWeight map visited + 1 ≤ fuel →
      name ∉ stack →
      MarkedCycles map stack visited toRem →
      visited ⊆ (walkAux fuel map (.inl name) stack visited toRem).1 ∧
      toRem ⊆ (walkAux fuel map (.inl name) stack visited toRem).2 ∧
      name ∈ (walkAux fuel map (.inl name) stack visited toRem).1 ∧
      MarkedCycles map stack (walkAux fuel map (.inl name) stack visited toRem).1
        (walkAux fuel map (.inl name) stack visited toRem).2) ∧
    (∀ (refs : List Name) (stack visited toRem : List Name),
      unvisitedWeight map visited + refs.length + 1 ≤ fuel →
      MarkedCycles map stack visited toRem →
      visited ⊆ (walkAux fuel map (.inr refs) stack visited toRem).1 ∧
      toRem ⊆ (walkAux fuel map (.inr refs) stack visited toRem).2 ∧
      MarkedCycles map stack (walkAux fuel map (.inr refs) stack visited toRem).1
        (walkAux fuel map (.inr refs) stack visited toRem).2 ∧
      ∀ w ∈ refs,
        (w ∈ stack → w ∈ (walkAux fuel map (.inr refs) stack visited toRem).2) ∧
        (w ∉ stack → w ∈ (walkAux fuel map (.inr refs) stack visited toRem).1)) := by
  intro fuel
  induction fuel with
  | zero =>
    constructor
    · intro name stack visited toRem hfuel
      exact absurd hfuel (by omega)
    · intro refs stack visited toRem hfuel
      exact absurd hfuel (by omega)
  | succ fuel ih =>
    obtain ⟨ihW, ihR⟩ := ih
    constructor
    · intro name stack visited toRem hfuel hns hmc
      by_cases hv : name ∈ visited
      · have hred : walkAux (fuel+1) map (.inl name) stack visited toRem =
            (visited, toRem) := by simp [walkAux, hv]
        rw [hred]
        exact ⟨fun a ha => ha, fun a ha => ha, hv, hmc⟩
      · cases halk : alookup map name with
        | none =>
          have hred : walkAux (fuel+1) map (.inl name) stack visited toRem =
              (name :: visited, toRem) := by simp [walkAux, hv, halk]
          rw [hred]
          refine ⟨fun a ha => List.mem_cons_of_mem _ ha, fun a ha => ha,
            List.mem_cons_self _ _, ?_⟩
          intro v hvm hvs l hw
          rcases List.mem_cons.1 hvm with hveq | hvin
          · subst hveq
            obtain ⟨w, l₂, hl, hedge, _⟩ := walks_cycle_first_edge hw
            obtain ⟨sv, refs, halk', _, _⟩ := edge_source_lookup hedge
            rw [halk] at halk'
            cases halk'
          · exact hmc v hvin hvs l hw
        | some value =>
          cases href : value.references with
          | none =>
            have hred : walkAux (fuel+1) map (.inl name) stack visited toRem =
                (name :: visited, toRem) := by simp [walkAux, hv, halk, href]
            rw [hred]
            refine ⟨fun a ha => List.mem_cons_of_mem _ ha, fun a ha => ha,
              List.mem_cons_self _ _, ?_⟩
            intro v hvm hvs l hw
            rcases List.mem_cons.1 hvm with hveq | hvin
            · subst hveq
              obtain ⟨w, l₂, hl, hedge, _⟩ := walks_cycle_first_edge hw
              obtain ⟨sv, refs, halk', href', _⟩ := edge_source_lookup hedge
              rw [halk] at halk'
              cases halk'
              rw [href] at href'
              cases href'
            · exact hmc v hvin hvs l hw
          | some refs =>
            have hred : walkAux (fuel+1) map (.inl name) stack visited toRem =
                walkAux fuel map (.inr refs) (stack ++ [name]) (name :: visited) toRem := by
              simp [walkAux, hv, halk, href]
            rw [hred]
            have hwt := uw_insert hnd halk href hv
            have hfuel' : unvisitedWeight map (name :: visited) + refs.length + 1 ≤ fuel := by
              omega
            have hmc' : MarkedCycles map (stack ++ [name]) (name :: visited) toRem := by
              intro v hvm hvs l hw
              have hvne : v ≠ name := by
                intro h
                subst h
                exact hvs (List.mem_append_right _ (List.mem_cons_self _ _))
              have hvin : v ∈ visited := by
                rcases List.mem_cons.1 hvm with h | h
                · exact absurd h hvne
                · exact h
              exact hmc v hvin (fun h => hvs (List.mem_append_left _ h)) l hw
            obtain ⟨h1, h2, h3, h4⟩ := ihR refs (stack ++ [name]) (name :: visited) toRem
              hfuel' hmc'
            refine ⟨fun a ha => h1 (List.mem_cons_of_mem _ ha), h2,
              h1 (List.mem_cons_self _ _), ?_⟩
            intro v hvm hvs l hw
            by_cases hvn : v = name
            · subst hvn
              obtain ⟨w, l₂, hl, hedge, hcase⟩ := walks_cycle_first_edge hw
              have hwrefs : w ∈ refs := refs_of_edge halk href hedge
              obtain ⟨hinstack, hnotstack⟩ := h4 w hwrefs
              by_cases hws : w ∈ stack ++ [v]
              · refine ⟨w, ?_, hinstack hws⟩
                rw [hl]
                rcases hcase with ⟨hwx, _⟩ | hwalk
                · subst hwx
                  exact List.mem_cons_self _ _
                · obtain ⟨l₃, hl₃⟩ := walks_shape hwalk
                  rw [hl₃]
                  exact List.mem_cons_of_mem _ (List.mem_cons_self _ _)
              · rcases hcase with ⟨hwx, _⟩ | hwalk
                · subst hwx
                  exact absurd (List.mem_append_right stack (List.mem_cons_self _ _)) hws
                · have hrot : Walks map w w (l₂ ++ [v]) := walks_append_edge hwalk hedge
                  obtain ⟨r, hrmem, hrR⟩ := h3 w (hnotstack hws) hws (l₂ ++ [v]) hrot
                  refine ⟨r, ?_, hrR⟩
                  rw [hl]
                  rcases List.mem_append.1 hrmem with h | h
                  · exact List.mem_cons_of_mem _ h
                  · rw [List.mem_singleton] at h
                    subst h
                    exact List.mem_cons_self _ _
            · have hvs' : v ∉ stack ++ [name] := by
                intro hmem
                rcases List.mem_append.1 hmem with h | h
                · exact hvs h
                · rw [List.mem_singleton] at h
                  exact hvn h
              exact h3 v hvm hvs' l hw
    · intro refs stack visited toRem hfuel hmc
      cases refs with
      | nil =>
        have hred : walkAux (fuel+1) map (.inr []) stack visited toRem =
            (visited, toRem) := by simp [walkAux]
        rw [hred]
        exact ⟨fun a ha => ha, fun a ha => ha, hmc,
          fun w hw => absurd hw (List.not_mem_nil w)⟩
      | cons next rest =>
        cases hidx : idxOfN stack next with
        | some i =>
          have hred : walkAux (fuel+1) map (.inr (next :: rest)) stack visited toRem =
              walkAux fuel map (.inr rest) stack visited (stack.drop i ++ toRem) := by
            simp [walkAux, hidx]
          rw [hred]
          have hfuel' : unvisitedWeight map visited + rest.length + 1 ≤ fuel := by
            simp only [List.length_cons] at hfuel
            omega
          have hmc' : MarkedCycles map stack visited (stack.drop i ++ toRem) := by
            intro v hv hvs l hw
            obtain ⟨r, hr1, hr2⟩ := hmc v hv hvs l hw
            exact ⟨r, hr1, List.mem_append_right _ hr2⟩
          obtain ⟨h1, h2, h3, h4⟩ := ihR rest stack visited _ hfuel' hmc'
          refine ⟨h1, fun a ha => h2 (List.mem_append_right _ ha), h3, ?_⟩
          intro w hw
          rcases List.mem_cons.1 hw with hweq | hwin
          · subst hweq
            obtain ⟨t, hdrop⟩ := idxOfN_drop hidx
            constructor
            · intro _
              exact h2 (List.mem_append_left _ (hdrop ▸ List.mem_cons_self _ _))
            · intro hnstack
              exact absurd (List.drop_subset i stack (hdrop ▸ List.mem_cons_self w t)) hnstack
          · exact h4 w hwin
        | none =>
          have hred : walkAux (fuel+1) map (.inr (next :: rest)) stack visited toRem =
              walkAux fuel map (.inr rest) stack
                (walkAux fuel map (.inl next) stack visited toRem).1
                (walkAux fuel map (.inl next) stack visited toRem).2 := by
            simp [walkAux, hidx]
          rw [hred]
          have hns : next ∉ stack := idxOfN_none hidx
          have hfuelW : unvisitedWeight map visited + 1 ≤ fuel := by
            simp only [List.length_cons] at hfuel
            omega
          obtain ⟨g1, g2, g3, g4⟩ := ihW next stack visited toRem hfuelW hns hmc
          have hfuelR : unvisitedWeight map
              (walkAux fuel map (.inl next) stack visited toRem).1 + rest.length + 1 ≤ fuel := by
            have hle := uw_antitone map g1
            simp only [List.length_cons] at hfuel
            omega
          obtain ⟨h1, h2, h3, h4⟩ := ihR rest stack _ _ hfuelR g4
          refine ⟨fun a ha => h1 (g1 ha), fun a ha => h2 (g2 ha), h3, ?_⟩
          intro w hw
          rcases List.mem_cons.1 hw with hweq | hwin
          · subst hweq
            exact ⟨fun hmem => absurd hmem hns, fun _ => h1 g3⟩
          · exact h4 w hwin

theorem alookup_some_mem_keys {α : Type} {l : List (Name × α)} {n : Name} {v : α}
    (h : alookup l n = some v) : n ∈ l.map (fun e => e.1) := by
  induction l with
  | nil => simp [alookup] at h
  | cons e r ih =>
    unfold alookup at h
    by_cases hen : e.1 = n
    · rw [List.map_cons]
      exact List.mem_cons.2 (.inl hen.symm)
    · rw [if_neg hen] at h
      rw [List.map_cons]
      exact List.mem_cons_of_mem _ (ih h)

theorem walk_keys_main (map : SMap) (hnd : (map.map fun e => e.1).Nodup) :
    ∀ (ks visited toRem : List Name),
    MarkedCycles map [] visited toRem →
    visited ⊆ (walk_keys (mapWeight map + 1) map ks visited toRem).1 ∧
    MarkedCycles map [] (walk_keys (mapWeight map + 1) map ks visited toRem).1
      (walk_keys (mapWeight map + 1) map ks visited toRem).2 ∧
    ∀ k ∈ ks, k ∈ (walk_keys (mapWeight map + 1) map ks visited toRem).1 := by
  intro ks
  induction ks with
  | nil =>
    intro visited toRem hmc
    refine ⟨fun a ha => ha, hmc, fun k hk => absurd hk (List.not_mem_nil k)⟩
  | cons k ks ih =>
    intro visited toRem hmc
    have hred : walk_keys (mapWeight map + 1) map (k :: ks) visited toRem =
        walk_keys (mapWeight map + 1) map ks
          (walkAux (mapWeight map + 1) map (.inl k) [] visited toRem).1
          (walkAux (mapWeight map + 1) map (.inl k) [] visited toRem).2 := by
      simp [walk_keys]
    rw [hred]
    have hfuel : unvisitedWeight map visited + 1 ≤ mapWeight map + 1 := by
      have := uw_le_mapWeight map visited
      omega
    obtain ⟨g1, g2, g3, g4⟩ := (walk_main map hnd (mapWeight map + 1)).1 k [] visited toRem
      hfuel (List.not_mem_nil k) hmc
    obtain ⟨h1, h2, h3⟩ := ih _ _ g4
    refine ⟨fun a ha => h1 (g1 ha), h2, ?_⟩
    intro k' hk'
    rcases List.mem_cons.1 hk' with heq | hin
    · subst heq
      exact h1 g3
    · exact h3 k' hin

/-- C2 counterexample: the second half of the claim — every variable on any
cycle of the original reference graph is removed from the map — is false.
In `mC3` the variable `c1` lies on the original-graph cycle
`c1 → c2 → f → c1`, yet it is still present in `remove_cycles mC3`: the DFS
first marks the cycle `f → x → c2 → f`, after which `c2` is fully visited
and off the stack, so the walk from `c1` stops at `c2` without marking
`c1`. -/
theorem C2_counterexample :
    Walks mC3 "c1" "c1" ["c1", "c2", "f"] ∧
    (alookup (remove_cycles mC3) "c1").isSome = true := by
  refine ⟨?_, by decide⟩
  refine .cons ?_ (.cons ?_ (.single ?_)) <;> (unfold EdgeTo; decide)

/-- C2 amended: the first half of the claim holds — for every specified map
(hash maps modelled as association lists with duplicate-free keys), after
`remove_cycles` the reference graph of the remaining entries is acyclic: no
nonempty edge path leads from any name back to itself.  Every surviving
cycle member lost at least one of its cycle companions, but the member
itself may survive (see the counterexample). -/
theorem C2_amended_remove_cycles_acyclic (map : SMap)
    (hnd : (map.map fun e => e.1).Nodup) :
    ∀ (v : Name) (l : List Name), ¬ Walks (remove_cycles map) v v l := by
  intro v l hw
  have hlift : ∀ {u z : Name} {l' : List Name}, Walks (remove_cycles map) u z l' →
      Walks map u z l' ∧ ∀ r ∈ l', r ∉ removed_names map := by
    intro u z l' h
    induction h with
    | single h1 =>
      obtain ⟨he, hu⟩ := edge_remove_cycles h1
      refine ⟨.single he, ?_⟩
      intro r hr
      rw [List.mem_singleton] at hr
      subst hr
      exact hu
    | cons h1 h2 ih =>
      obtain ⟨he, hu⟩ := edge_remove_cycles h1
      obtain ⟨hwk, hall⟩ := ih
      refine ⟨.cons he hwk, ?_⟩
      intro r hr
      rcases List.mem_cons.1 hr with h | h
      · subst h
        exact hu
      · exact hall r h
  obtain ⟨hwm, hnotrem⟩ := hlift hw
  obtain ⟨w, l₃, _, hedge, _⟩ := walks_cycle_first_edge hwm
  obtain ⟨sv, refs, halk, _, _⟩ := edge_source_lookup hedge
  have hkeys : v ∈ map.map (fun e => e.1) := alookup_some_mem_keys halk
  obtain ⟨h1, h2, h3⟩ := walk_keys_main map hnd (map.map fun e => e.1) [] []
    (fun v0 hv0 => absurd hv0 (List.not_mem_nil v0))
  obtain ⟨r, hrl, hrR⟩ := h2 v (h3 v hkeys) (List.not_mem_nil v) l hwm
  exact hnotrem r hrl hrR

/-- Witness for the amended C2 on a concrete one-entry self-loop map. -/
theorem C2_amended_remove_cycles_acyclic_witness :
    ¬ Walks (remove_cycles mSelfLoop) "a" "a" ["a"] :=
  C2_amended_remove_cycles_acyclic mSelfLoop (by decide) "a" ["a"]

/-! ## State lemmas for the substitution engine -/

theorem substitute_block_state_inv {σ : Type} (P : σ → Prop)
    (cb : Name → ComputedValue → σ → σ × Option (TST × ComputedValue))
    (hcb : ∀ n pcv s, P s → P (cb n pcv s).1) :
    ∀ (fuel : Nat) (toks : List Tok) (pending : String) (pf : TST)
      (acc : ComputedValue) (last : TST) (s : σ), P s →
    P (substitute_block cb fuel toks pending pf acc last s).1 := by
  intro fuel
  induction fuel with
  | zero =>
    intro toks pending pf acc last s hP
    cases toks with
    | nil => simpa [substitute_block] using hP
    | cons t rest => simpa [substitute_block] using hP
  | succ fuel ih =>
    intro toks pending pf acc last s hP
    cases toks with
    | nil => simpa [substitute_block] using hP
    | cons t rest =>
      cases t with
      | func fname body =>
        by_cases hvar : eqIgnoreAsciiCase fname "var" = true
        · cases hid : expectIdentTok body with
          | none =>
            have hred : substitute_block cb (fuel+1) (.func fname body :: rest)
                pending pf acc last s = (s, none) := by
              simp [substitute_block, hvar, hid]
            rw [hred]
            exact hP
          | some pr =>
            obtain ⟨rawName, afterIdent⟩ := pr
            cases hpn : parse_name rawName with
            | none =>
              have hred : substitute_block cb (fuel+1) (.func fname body :: rest)
                  pending pf acc last s = (s, none) := by
                simp [substitute_block, hvar, hid, hpn]
              rw [hred]
              exact hP
            | some name =>
              have hPcb := hcb name (acc.push pending pf last) s hP
              rcases hcb0 : cb name (acc.push pending pf last) s with ⟨s1, r⟩
              rw [hcb0] at hPcb
              cases r with
              | some pr2 =>
                obtain ⟨lastV, acc2⟩ := pr2
                have hred : substitute_block cb (fuel+1) (.func fname body :: rest)
                    pending pf acc last s =
                    substitute_block cb fuel rest "" (headTST rest) acc2 lastV s1 := by
                  simp [substitute_block, hvar, hid, hpn, hcb0]
                rw [hred]
                exact ih rest "" (headTST rest) acc2 lastV s1 hPcb
              | none =>
                cases hcm : expectCommaTok afterIdent with
                | none =>
                  have hred : substitute_block cb (fuel+1) (.func fname body :: rest)
                      pending pf acc last s = (s1, none) := by
                    simp [substitute_block, hvar, hid, hpn, hcb0, hcm]
                  rw [hred]
                  exact hPcb
                | some afterComma =>
                  cases afterComma with
                  | nil =>
                    have hred : substitute_block cb (fuel+1) (.func fname body :: rest)
                        pending pf acc last s = (s1, none) := by
                      simp [substitute_block, hvar, hid, hpn, hcb0, hcm]
                    rw [hred]
                    exact hPcb
                  | cons fb0 fbr =>
                    have hPin := ih (fb0 :: fbr) "" fb0.serialization_type
                      (acc.push pending pf last) .Nothing s1 hPcb
                    rcases hsb : substitute_block cb fuel (fb0 :: fbr) ""
                        fb0.serialization_type (acc.push pending pf last) .Nothing s1
                      with ⟨s2, r2⟩
                    rw [hsb] at hPin
                    cases r2 with
                    | none =>
                      have hred : substitute_block cb (fuel+1) (.func fname body :: rest)
                          pending pf acc last s = (s2, none) := by
                        simp [substitute_block, hvar, hid, hpn, hcb0, hcm, hsb]
                      rw [hred]
                      exact hPin
                    | some pr3 =>
                      obtain ⟨acc3, pendFb, pfFb, lastFb⟩ := pr3
                      have hred : substitute_block cb (fuel+1) (.func fname body :: rest)
                          pending pf acc last s =
                          substitute_block cb fuel rest "" (headTST rest)
                            (acc3.push pendFb pfFb lastFb) lastFb s2 := by
                        simp [substitute_block, hvar, hid, hpn, hcb0, hcm, hsb]
                      rw [hred]
                      exact ih rest "" (headTST rest)
                        (acc3.push pendFb pfFb lastFb) lastFb s2 hPin
        · simp only [substitute_block, hvar, if_false, Bool.false_eq_true]
          have hPin := ih body (pending ++ fname ++ "(") pf acc .Nothing s hP
          rcases hsb : substitute_block cb fuel body (pending ++ fname ++ "(") pf acc .Nothing s
            with ⟨s1, r⟩
          rw [hsb] at hPin
          cases r with
          | none => simpa using hPin
          | some pr =>
            obtain ⟨acc1, pend1, pf1, l1⟩ := pr
            simpa using ih rest (pend1 ++ ")") pf1 acc1 .Other s1 hPin
      | paren body =>
        simp only [substitute_block]
        have hPin := ih body (pending ++ "(") pf acc .Nothing s hP
        rcases hsb : substitute_block cb fuel body (pending ++ "(") pf acc .Nothing s
          with ⟨s1, r⟩
        rw [hsb] at hPin
        cases r with
        | none => simpa using hPin
        | some pr =>
          obtain ⟨acc1, pend1, pf1, l1⟩ := pr
          simpa using ih rest (pend1 ++ ")") pf1 acc1 .Other s1 hPin
      | square body =>
        simp only [substitute_block]
        have hPin := ih body (pending ++ "[") pf acc .Nothing s hP
        rcases hsb : substitute_block cb fuel body (pending ++ "[") pf acc .Nothing s
          with ⟨s1, r⟩
        rw [hsb] at hPin
        cases r with
        | none => simpa using hPin
        | some pr =>
          obtain ⟨acc1, pend1, pf1, l1⟩ := pr
          simpa using ih rest (pend1 ++ "]") pf1 acc1 .Other s1 hPin
      | curly body =>
        simp only [substitute_block]
        have hPin := ih body (pending ++ "\x7b") pf acc .Nothing s hP
        rcases hsb : substitute_block cb fuel body (pending ++ "\x7b") pf acc .Nothing s
          with ⟨s1, r⟩
        rw [hsb] at hPin
        cases r with
        | none => simpa using hPin
        | some pr =>
          obtain ⟨acc1, pend1, pf1, l1⟩ := pr
          simpa using ih rest (pend1 ++ "\x7d") pf1 acc1 .Other s1 hPin
      | ident str => simpa [substitute_block] using ih rest _ pf acc _ s hP
      | ws str => simpa [substitute_block] using ih rest _ pf acc _ s hP
      | comment str => simpa [substitute_block] using ih rest _ pf acc _ s hP
      | colon => simpa [substitute_block] using ih rest _ pf acc _ s hP
      | semicolon => simpa [substitute_block] using ih rest _ pf acc _ s hP
      | comma => simpa [substitute_block] using ih rest _ pf acc _ s hP
      | num str => simpa [substitute_block] using ih rest _ pf acc _ s hP
      | dim str => simpa [substitute_block] using ih rest _ pf acc _ s hP
      | badString str => simpa [substitute_block] using ih rest _ pf acc _ s hP
      | badUrl str => simpa [substitute_block] using ih rest _ pf acc _ s hP

theorem alookup_cons_ne {α : Type} {k n : Name} (h : k ≠ n) (v : α)
    (l : List (Name × α)) : alookup ((k, v) :: l) n = alookup l n := by
  simp [alookup, h]

theorem alookup_none_filter {α : Type} (p : Name × α → Bool) {l : List (Name × α)}
    {n : Name} (h : alookup l n = none) : alookup (l.filter p) n = none := by
  induction l with
  | nil => simp [alookup]
  | cons e r ih =>
    unfold alookup at h
    by_cases hen : e.1 = n
    · rw [if_pos hen] at h
      cases h
    · rw [if_neg hen] at h
      by_cases hp : p e
      · rw [List.filter_cons_of_pos hp]
        unfold alookup
        rw [if_neg hen]
        exact ih h
      · rw [List.filter_cons_of_neg (by simpa using hp)]
        exact ih h

theorem alookup_filter_self_none {α : Type} (l : List (Name × α)) (n : Name) :
    alookup (l.filter fun e => !(e.1 == n)) n = none := by
  induction l with
  | nil => simp [alookup]
  | cons e r ih =>
    by_cases hen : e.1 = n
    · rw [List.filter_cons_of_neg (by simp [hen])]
      exact ih
    · rw [List.filter_cons_of_pos (by simp [hen])]
      unfold alookup
      rw [if_neg hen]
      exact ih

theorem alookup_none_not_key {α : Type} {l : List (Name × α)} {n : Name}
    (h : alookup l n = none) : ∀ e ∈ l, e.1 ≠ n := by
  induction l with
  | nil => intro e he; cases he
  | cons e0 r ih =>
    intro e he
    unfold alookup at h
    by_cases hen : e0.1 = n
    · rw [if_pos hen] at h
      cases h
    · rw [if_neg hen] at h
      rcases List.mem_cons.1 he with heq | hin
      · subst heq
        exact hen
      · exact ih h e hin

theorem substitute_one_succ {refs : List Name} (fuel : Nat) (name : Name)
    (sv : BorrowedSpecifiedValue) (smap : SMap) (inherited : Option CMap)
    (par : Option ComputedValue) (cm : CMap) (inv : List Name)
    (hlk : alookup cm name = none) (hinv : name ∉ inv)
    (href : sv.references = some refs) (hemp : refs.isEmpty = false) :
    substitute_one (fuel+1) name sv smap inherited par cm inv =
      match substituteBody fuel sv smap inherited cm inv with
      | ((cm', inv'), some (acc, pending, pendFirst, lastT)) =>
        (some (acc.push pending pendFirst lastT).last_token_type,
         par.map fun p => p.push_variable (acc.push pending pendFirst lastT),
         (name, acc.push pending pendFirst lastT) :: cm', inv')
      | ((cm', inv'), none) =>
        match inherited.bind fun i => alookup i name with
        | some inherited_value =>
          (some inherited_value.last_token_type,
           par.map fun p => p.push_variable inherited_value,
           (name, inherited_value) :: cm', inv')
        | none => (none, par, cm', name :: inv') := by
  simp only [substitute_one, hlk, hinv, href, hemp, substituteBody, subCB,
    if_false, Bool.false_eq_true]
  rfl

theorem substitute_one_keeps_none (smap : SMap) (inherited : Option CMap) (a : Name)
    (hsm : alookup smap a = none) :
    ∀ (fuel : Nat) (name : Name) (sv : BorrowedSpecifiedValue)
      (par : Option ComputedValue) (cm : CMap) (inv : List Name),
      name ≠ a → alookup cm a = none →
      alookup (substitute_one fuel name sv smap inherited par cm inv).2.2.1 a = none := by
  intro fuel
  induction fuel with
  | zero =>
    intro name sv par cm inv hne hcm
    simpa [substitute_one] using hcm
  | succ fuel ih =>
    intro name sv par cm inv hne hcm
    cases hlk : alookup cm name with
    | some cv => simpa [substitute_one, hlk] using hcm
    | none =>
      by_cases hinv : name ∈ inv
      · simpa [substitute_one, hlk, hinv] using hcm
      · cases href : sv.references with
        | none =>
          simp [substitute_one, hlk, hinv, href, alookup_cons_ne hne, hcm]
        | some refs =>
          rcases hemp : refs.isEmpty with _ | _
          · rw [substitute_one_succ fuel name sv smap inherited par cm inv hlk hinv href hemp]
            have hbody : alookup (substituteBody fuel sv smap inherited cm inv).1.1 a = none := by
              unfold substituteBody
              refine substitute_block_state_inv (fun st => alookup st.1 a = none)
                (subCB fuel smap inherited) ?_ (tokSizeL sv.toks) sv.toks ""
                sv.first_token_type ComputedValue.empty .Nothing (cm, inv) hcm
              intro n pcv st hPst
              unfold subCB
              cases hlkn : alookup smap n with
              | none => simpa using hPst
              | some other =>
                have hne' : n ≠ a := by
                  intro h
                  rw [h, hsm] at hlkn
                  cases hlkn
                have hrec := ih n other (some pcv) st.1 st.2 hne' hPst
                rcases hso : substitute_one fuel n other smap inherited (some pcv) st.1 st.2
                  with ⟨r1, r2, cm', inv'⟩
                rw [hso] at hrec
                simp only [hso]
                cases r1 with
                | none => simpa using hrec
                | some t =>
                  cases r2 with
                  | none => simpa using hrec
                  | some pcv' => simpa using hrec
            rcases hsb : substituteBody fuel sv smap inherited cm inv with ⟨⟨cm', inv'⟩, r⟩
            rw [hsb] at hbody
            cases r with
            | some pr =>
              obtain ⟨acc, pending, pendFirst, lastT⟩ := pr
              simpa [alookup_cons_ne hne] using hbody
            | none =>
              cases hih : inherited.bind fun i => alookup i name with
              | some iv => simpa [hih, alookup_cons_ne hne] using hbody
              | none => simpa [hih] using hbody
          · simp [substitute_one, hlk, hinv, href, hemp, alookup_cons_ne hne, hcm]

theorem substitute_all_keeps_none (smap : SMap) (inherited : Option CMap) (a : Name)
    (hsm : alookup smap a = none) :
    ∀ (entries : List (Name × BorrowedSpecifiedValue)) (cm : CMap) (inv : List Name),
      (∀ e ∈ entries, e.1 ≠ a) → alookup cm a = none →
      alookup (substitute_all_aux entries smap inherited cm inv).1 a = none := by
  intro entries
  induction entries with
  | nil =>
    intro cm inv _ hcm
    simpa [substitute_all_aux] using hcm
  | cons e rest ih =>
    intro cm inv hne hcm
    obtain ⟨name, value⟩ := e
    simp only [substitute_all_aux]
    exact ih _ _ (fun e' he' => hne e' (List.mem_cons_of_mem _ he'))
      (substitute_one_keeps_none smap inherited a hsm _ name value none cm inv
        (hne (name, value) (List.mem_cons_self _ _)) hcm)

theorem firstDecl_split {decls : List (Name × DeclaredValue)} {a : Name} {d : DeclaredValue}
    (h : firstDecl decls a = some d) :
    ∃ L₁ L₂, decls = L₁ ++ (a, d) :: L₂ ∧ ∀ p ∈ L₁, p.1 ≠ a := by
  induction decls with
  | nil => simp [firstDecl] at h
  | cons e r ih =>
    obtain ⟨m, d0⟩ := e
    by_cases hm : m = a
    · simp only [firstDecl, if_pos hm] at h
      subst hm
      injection h with h
      subst h
      exact ⟨[], r, rfl, fun p hp => absurd hp (List.not_mem_nil p)⟩
    · simp only [firstDecl, if_neg hm] at h
      obtain ⟨L₁, L₂, heq, hall⟩ := ih h
      refine ⟨(m, d0) :: L₁, L₂, by rw [heq, List.cons_append], ?_⟩
      intro p hp
      rcases List.mem_cons.1 hp with heq' | hin
      · subst heq'
        exact hm
      · exact hall p hin

theorem cascade_seen (cp : Option SMap) (inh : Option CMap) (seen : List Name)
    (name : Name) (dv : DeclaredValue) :
    (cascade cp inh seen name dv).2 = if name ∈ seen then seen else name :: seen := by
  by_cases h : name ∈ seen
  · simp [cascade, h]
  · simp [cascade, h]

theorem foldl_cascade_seen (inh : Option CMap) (a : Name) :
    ∀ (L : List (Name × DeclaredValue)) (st : Option SMap × List Name),
    (∀ p ∈ L, p.1 ≠ a) → a ∉ st.2 →
    a ∉ (L.foldl (fun st p => cascade st.1 inh st.2 p.1 p.2) st).2 := by
  intro L
  induction L with
  | nil => intro st _ h; simpa using h
  | cons p r ih =>
    intro st hall hst
    simp only [List.foldl_cons]
    refine ih _ (fun q hq => hall q (List.mem_cons_of_mem _ hq)) ?_
    rw [cascade_seen]
    by_cases hp : p.1 ∈ st.2
    · simpa [hp] using hst
    · simp only [hp, if_false]
      intro hmem
      rcases List.mem_cons.1 hmem with heq | hin
      · exact hall p (List.mem_cons_self _ _) heq.symm
      · exact hst hin

theorem cascade_initial_start (cp : Option SMap) (inh : Option CMap)
    (seen : List Name) (a : Name) (h : a ∉ seen) :
    (cascade cp inh seen a .initial).2 = a :: seen ∧
    ∃ m, (cascade cp inh seen a .initial).1 = some m ∧ alookup m a = none := by
  refine ⟨by rw [cascade_seen]; simp [h], ?_⟩
  unfold cascade
  rw [if_neg h]
  exact ⟨_, rfl, alookup_filter_self_none _ a⟩

theorem foldl_cascade_keeps (inh : Option CMap) (a : Name) :
    ∀ (L : List (Name × DeclaredValue)) (st : Option SMap × List Name),
    a ∈ st.2 → (∃ m, st.1 = some m ∧ alookup m a = none) →
    a ∈ (L.foldl (fun st p => cascade st.1 inh st.2 p.1 p.2) st).2 ∧
    ∃ m', (L.foldl (fun st p => cascade st.1 inh st.2 p.1 p.2) st).1 = some m' ∧
      alookup m' a = none := by
  intro L
  induction L with
  | nil => intro st h1 h2; exact ⟨h1, h2⟩
  | cons p r ih =>
    intro st hseen hmap
    obtain ⟨m, hm, hma⟩ := hmap
    obtain ⟨n, dv⟩ := p
    simp only [List.foldl_cons]
    by_cases hn : n ∈ st.2
    · refine ih _ ?_ ?_
      · simpa [cascade, hn] using hseen
      · exact ⟨m, by simpa [cascade, hn] using hm, hma⟩
    · have hna : n ≠ a := fun h => hn (h ▸ hseen)
      refine ih _ ?_ ?_
      · rw [cascade_seen]
        simp only [hn, if_false]
        exact List.mem_cons_of_mem _ hseen
      · unfold cascade
        rw [if_neg hn, hm]
        cases dv with
        | value v =>
          exact ⟨_, rfl, by
            rw [alookup_cons_ne hna]
            exact alookup_none_filter _ hma⟩
        | initial => exact ⟨_, rfl, alookup_none_filter _ hma⟩
        | inherit => exact ⟨m, rfl, hma⟩

/-! ## C7 — `initial` removes -/

/-- C7: for every parent computed map containing `a` and every child
declaration stream whose first declaration for `a` is `initial`, the
computed map produced by `finish_cascade` does not contain `a`, even though
the inherited map supplied it. -/
theorem C7_initial_removes (pm : CMap) (a : Name) (cva : ComputedValue)
    (hpm : alookup pm a = some cva)
    (decls : List (Name × DeclaredValue))
    (hfirst : firstDecl decls a = some .initial) :
    ∃ m', finish_cascade (process_declarations decls (some pm)).1 (some pm) = some m' ∧
      alookup m' a = none := by
  obtain ⟨L₁, L₂, hsplit, hL₁⟩ := firstDecl_split hfirst
  unfold process_declarations
  rw [hsplit, List.foldl_append, List.foldl_cons]
  have hseen1 := foldl_cascade_seen (some pm) a L₁ (none, []) hL₁ (by simp)
  set st₁ := L₁.foldl (fun st p => cascade st.1 (some pm) st.2 p.1 p.2) (none, []) with hst₁
  obtain ⟨hseenA, hmapA⟩ := cascade_initial_start st₁.1 (some pm) st₁.2 a hseen1
  obtain ⟨hseenB, mf, hmf, hmfa⟩ := foldl_cascade_keeps (some pm) a L₂
    (cascade st₁.1 (some pm) st₁.2 a .initial) (by rw [hseenA]; exact List.mem_cons_self _ _)
    hmapA
  rw [hmf]
  unfold finish_cascade
  refine ⟨_, rfl, ?_⟩
  have hrc : alookup (remove_cycles mf) a = none := alookup_none_filter _ hmfa
  unfold substitute_all
  exact substitute_all_keeps_none (remove_cycles mf) (some pm) a hrc _ [] []
    (alookup_none_not_key hrc) rfl

/-- Witness for C7: parent `--a: red`, child `--a: initial`. -/
theorem C7_initial_removes_witness :
    ∃ m', finish_cascade (process_declarations declsC7 (some pmC7)).1 (some pmC7) = some m' ∧
      alookup m' "a" = none :=
  C7_initial_removes pmC7 "a" ⟨"red", .Ident, .Ident⟩ (by decide) declsC7 rfl

theorem alookup_cons_self {α : Type} (k : Name) (v : α) (l : List (Name × α)) :
    alookup ((k, v) :: l) k = some v := by
  simp [alookup]

theorem substitute_one_keeps_invalid (smap : SMap) (inherited : Option CMap) (a : Name) :
    ∀ (fuel : Nat) (name : Name) (sv : BorrowedSpecifiedValue)
      (par : Option ComputedValue) (cm : CMap) (inv : List Name),
      a ∈ inv → alookup cm a = none →
      a ∈ (substitute_one fuel name sv smap inherited par cm inv).2.2.2 ∧
      alookup (substitute_one fuel name sv smap inherited par cm inv).2.2.1 a = none := by
  intro fuel
  induction fuel with
  | zero =>
    intro name sv par cm inv ha hcm
    exact ⟨by simpa [substitute_one] using ha, by simpa [substitute_one] using hcm⟩
  | succ fuel ih =>
    intro name sv par cm inv ha hcm
    by_cases hna : name = a
    · subst hna
      exact ⟨by simpa [substitute_one, hcm, ha] using ha,
             by simpa [substitute_one, hcm, ha] using hcm⟩
    · cases hlk : alookup cm name with
      | some cv =>
        exact ⟨by simpa [substitute_one, hlk] using ha,
               by simpa [substitute_one, hlk] using hcm⟩
      | none =>
        by_cases hinv : name ∈ inv
        · exact ⟨by simpa [substitute_one, hlk, hinv] using ha,
                 by simpa [substitute_one, hlk, hinv] using hcm⟩
        · cases href : sv.references with
          | none =>
            refine ⟨by simpa [substitute_one, hlk, hinv, href] using ha, ?_⟩
            simp [substitute_one, hlk, hinv, href, alookup_cons_ne hna, hcm]
          | some refs =>
            rcases hemp : refs.isEmpty with _ | _
            · rw [substitute_one_succ fuel name sv smap inherited par cm inv hlk hinv href hemp]
              have hbody : a ∈ (substituteBody fuel sv smap inherited cm inv).1.2 ∧
                  alookup (substituteBody fuel sv smap inherited cm inv).1.1 a = none := by
                unfold substituteBody
                refine substitute_block_state_inv
                  (fun st => a ∈ st.2 ∧ alookup st.1 a = none)
                  (subCB fuel smap inherited) ?_ (tokSizeL sv.toks) sv.toks ""
                  sv.first_token_type ComputedValue.empty .Nothing (cm, inv) ⟨ha, hcm⟩
                intro n pcv st hPst
                unfold subCB
                cases hlkn : alookup smap n with
                | none => simpa using hPst
                | some other =>
                  have hrec := ih n other (some pcv) st.1 st.2 hPst.1 hPst.2
                  rcases hso : substitute_one fuel n other smap inherited (some pcv) st.1 st.2
                    with ⟨r1, r2, cm', inv'⟩
                  rw [hso] at hrec
                  simp only [hso]
                  cases r1 with
                  | none => simpa using hrec
                  | some t =>
                    cases r2 with
                    | none => simpa using hrec
                    | some pcv' => simpa using hrec
              rcases hsb : substituteBody fuel sv smap inherited cm inv with ⟨⟨cm', inv'⟩, r⟩
              rw [hsb] at hbody
              cases r with
              | some pr =>
                obtain ⟨acc, pending, pendFirst, lastT⟩ := pr
                exact ⟨by simpa using hbody.1, by simpa [alookup_cons_ne hna] using hbody.2⟩
              | none =>
                cases hih : inherited.bind fun i => alookup i name with
                | some iv =>
                  exact ⟨by simpa [hih] using hbody.1,
                         by simpa [hih, alookup_cons_ne hna] using hbody.2⟩
                | none =>
                  exact ⟨by simp [hih]; exact .inr hbody.1, by simpa [hih] using hbody.2⟩
            · refine ⟨by simpa [substitute_one, hlk, hinv, href, hemp] using ha, ?_⟩
              simp [substitute_one, hlk, hinv, href, hemp, alookup_cons_ne hna, hcm]

theorem substitute_one_keeps_binding (smap : SMap) (inherited : Option CMap)
    (a : Name) (iv : ComputedValue) :
    ∀ (fuel : Nat) (name : Name) (sv : BorrowedSpecifiedValue)
      (par : Option ComputedValue) (cm : CMap) (inv : List Name),
      alookup cm a = some iv →
      alookup (substitute_one fuel name sv smap inherited par cm inv).2.2.1 a = some iv := by
  intro fuel
  induction fuel with
  | zero =>
    intro name sv par cm inv hcm
    simpa [substitute_one] using hcm
  | succ fuel ih =>
    intro name sv par cm inv hcm
    by_cases hna : name = a
    · subst hna
      simpa [substitute_one, hcm] using hcm
    · cases hlk : alookup cm name with
      | some cv => simpa [substitute_one, hlk] using hcm
      | none =>
        by_cases hinv : name ∈ inv
        · simpa [substitute_one, hlk, hinv] using hcm
        · cases href : sv.references with
          | none =>
            simp [substitute_one, hlk, hinv, href, alookup_cons_ne hna, hcm]
          | some refs =>
            rcases hemp : refs.isEmpty with _ | _
            · rw [substitute_one_succ fuel name sv smap inherited par cm inv hlk hinv href hemp]
              have hbody : alookup (substituteBody fuel sv smap inherited cm inv).1.1 a =
                  some iv := by
                unfold substituteBody
                refine substitute_block_state_inv (fun st => alookup st.1 a = some iv)
                  (subCB fuel smap inherited) ?_ (tokSizeL sv.toks) sv.toks ""
                  sv.first_token_type ComputedValue.empty .Nothing (cm, inv) hcm
                intro n pcv st hPst
                unfold subCB
                cases hlkn : alookup smap n with
                | none => simpa using hPst
                | some other =>
                  have hrec := ih n other (some pcv) st.1 st.2 hPst
                  rcases hso : substitute_one fuel n other smap inherited (some pcv) st.1 st.2
                    with ⟨r1, r2, cm', inv'⟩
                  rw [hso] at hrec
                  simp only [hso]
                  cases r1 with
                  | none => simpa using hrec
                  | some t =>
                    cases r2 with
                    | none => simpa using hrec
                    | some pcv' => simpa using hrec
              rcases hsb : substituteBody fuel sv smap inherited cm inv with ⟨⟨cm', inv'⟩, r⟩
              rw [hsb] at hbody
              cases r with
              | some pr =>
                obtain ⟨acc, pending, pendFirst, lastT⟩ := pr
                simpa [alookup_cons_ne hna] using hbody
              | none =>
                cases hih : inherited.bind fun i => alookup i name with
                | some iv2 => simpa [hih, alookup_cons_ne hna] using hbody
                | none => simpa [hih] using hbody
            · simp [substitute_one, hlk, hinv, href, hemp, alookup_cons_ne hna, hcm]

/-! ## C6 — invalid-at-computed-value recovery -/

/-- C6: when the substitution pass over a value's tokens fails (a `var()`
references a missing or invalid variable and no usable fallback exists),
`substitute_one` recovers locally: if the inherited computed map contains
the name, the output computed map binds the name to the inherited computed
value; otherwise the name is marked invalid and stays absent from the
computed map.  The failure is never propagated past `substitute_all`: the
fold keeps running, an invalid (absent) name stays absent from the final
`substitute_all` state, and a name bound to its inherited value stays bound
to it (in particular `substitute_all` always returns a map). -/
theorem C6_invalid_at_computed_value_recovery
    (smap : SMap) (inherited : Option CMap) (fuel : Nat) (name : Name)
    (sv : BorrowedSpecifiedValue) (par : Option ComputedValue)
    (cm cm' : CMap) (inv inv' : List Name) (refs : List Name)
    (hlk : alookup cm name = none) (hinv : name ∉ inv)
    (href : sv.references = some refs) (hemp : refs.isEmpty = false)
    (hfail : substituteBody fuel sv smap inherited cm inv = ((cm', inv'), none)) :
    (∀ iv, (inherited.bind fun i => alookup i name) = some iv →
      substitute_one (fuel+1) name sv smap inherited par cm inv =
        (some iv.last_token_type, par.map fun p => p.push_variable iv,
         (name, iv) :: cm', inv') ∧
      alookup (substitute_one (fuel+1) name sv smap inherited par cm inv).2.2.1 name =
        some iv) ∧
    ((inherited.bind fun i => alookup i name) = none →
      substitute_one (fuel+1) name sv smap inherited par cm inv =
        (none, par, cm', name :: inv')) ∧
    (∀ (entries : List (Name × BorrowedSpecifiedValue)) (cm₀ : CMap) (inv₀ : List Name),
      name ∈ inv₀ → alookup cm₀ name = none →
      alookup (substitute_all_aux entries smap inherited cm₀ inv₀).1 name = none) ∧
    (∀ (entries : List (Name × BorrowedSpecifiedValue)) (cm₀ : CMap) (inv₀ : List Name)
      (iv : ComputedValue), alookup cm₀ name = some iv →
      alookup (substitute_all_aux entries smap inherited cm₀ inv₀).1 name = some iv) := by
  refine ⟨?_, ?_, ?_, ?_⟩
  · intro iv hiv
    rw [substitute_one_succ fuel name sv smap inherited par cm inv hlk hinv href hemp,
      hfail]
    simp only [hiv]
    exact ⟨trivial, alookup_cons_self name iv cm'⟩
  · intro hiv
    rw [substitute_one_succ fuel name sv smap inherited par cm inv hlk hinv href hemp,
      hfail]
    simp only [hiv]
  · intro entries
    induction entries with
    | nil =>
      intro cm₀ inv₀ _ hcm₀
      simpa [substitute_all_aux] using hcm₀
    | cons e rest ih =>
      intro cm₀ inv₀ hmem hcm₀
      obtain ⟨n, v⟩ := e
      simp only [substitute_all_aux]
      obtain ⟨h1, h2⟩ := substitute_one_keeps_invalid smap inherited name
        (smap.length + 1) n v none cm₀ inv₀ hmem hcm₀
      exact ih _ _ h1 h2
  · intro entries
    induction entries with
    | nil =>
      intro cm₀ inv₀ iv hcm₀
      simpa [substitute_all_aux] using hcm₀
    | cons e rest ih =>
      intro cm₀ inv₀ iv hcm₀
      obtain ⟨n, v⟩ := e
      simp only [substitute_all_aux]
      exact ih _ _ iv (substitute_one_keeps_binding smap inherited name iv
        (smap.length + 1) n v none cm₀ inv₀ hcm₀)

/-- Witness for C6: `--y: var(--x)` with `--x` missing — with an inherited
binding for `--y` the inherited value is used; without one, `--y` is marked
invalid and stays absent from the `substitute_all` state. -/
theorem C6_invalid_at_computed_value_recovery_witness :
    (substitute_one 6 "y" svY smapY (some [("y", ivY)]) none [] [] =
      (some ivY.last_token_type, none, [("y", ivY)], [])) ∧
    (substitute_one 6 "y" svY smapY none none [] [] = (none, none, [], ["y"])) ∧
    alookup (substitute_all_aux smapY smapY none [] ["y"]).1 "y" = none := by
  have h1 := (C6_invalid_at_computed_value_recovery smapY (some [("y", ivY)]) 5 "y" svY
    none [] [] [] [] ["x"] rfl (by decide) rfl rfl rfl).1 ivY rfl
  have h2 := (C6_invalid_at_computed_value_recovery smapY none 5 "y" svY
    none [] [] [] [] ["x"] rfl (by decide) rfl rfl rfl).2.1 rfl
  have h3 := (C6_invalid_at_computed_value_recovery smapY none 5 "y" svY
    none [] [] [] [] ["x"] rfl (by decide) rfl rfl rfl).2.2.1 smapY [] ["y"]
    (List.mem_cons_self _ _) rfl
  exact ⟨h1.1, h2, h3⟩

/-! ### C5: reference collection -/

/-- Skipping whitespace and comments does not change the syntactic
reference set. -/
theorem varRefs_nextNonWs : ∀ (l r : List Tok) (t0 : Tok),
    nextNonWs l = some (t0, r) → varRefs l = varRefs (t0 :: r) := by
  intro l
  induction l with
  | nil => intro r t0 h; simp [nextNonWs] at h
  | cons t rest ih =>
    intro r t0 h
    cases t
    case ws s =>
      simp only [nextNonWs] at h
      rw [show varRefs (Tok.ws s :: rest) = varRefs rest from by simp [varRefs]]
      exact ih r t0 h
    case comment s =>
      simp only [nextNonWs] at h
      rw [show varRefs (Tok.comment s :: rest) = varRefs rest from by simp [varRefs]]
      exact ih r t0 h
    all_goals
      simp only [nextNonWs, Option.some.injEq, Prod.mk.injEq] at h
    all_goals
      obtain ⟨h1, h2⟩ := h
    all_goals
      subst h1; subst h2; rfl

/-- A successful `expect_ident` leaves the syntactic reference set
unchanged: the consumed ident is not itself a `var()`. -/
theorem varRefs_expectIdent (body : List Tok) (s : String) (r : List Tok)
    (h : expectIdentTok body = some (s, r)) : varRefs body = varRefs r := by
  have hnn : nextNonWs body = some (Tok.ident s, r) := by
    rcases hx : nextNonWs body with _ | ⟨t0, r0⟩
    · simp [expectIdentTok, hx] at h
    · cases t0
      case ident s0 =>
        simp only [expectIdentTok, hx, Option.some.injEq, Prod.mk.injEq] at h
        obtain ⟨h1, h2⟩ := h
        subst h1; subst h2
        rfl
      all_goals simp [expectIdentTok, hx] at h
  rw [varRefs_nextNonWs body r _ hnn]
  simp [varRefs]

theorem mem_varRefs_func {n : Name} {fname : String} {body rest : List Tok}
    (h : n ∈ varRefs body ∨ n ∈ varRefs rest) :
    n ∈ varRefs (Tok.func fname body :: rest) := by
  cases hv : eqIgnoreAsciiCase fname "var" <;> simp [varRefs, hv] <;> tauto

theorem mem_varRefs_func_first {n : Name} {fname : String} {body rest : List Tok}
    (hv : eqIgnoreAsciiCase fname "var" = true) (h : n ∈ firstArgList body) :
    n ∈ varRefs (Tok.func fname body :: rest) := by
  simp [varRefs, hv]
  tauto

theorem mem_varRefs_paren {n : Name} {body rest : List Tok}
    (h : n ∈ varRefs body ∨ n ∈ varRefs rest) :
    n ∈ varRefs (Tok.paren body :: rest) := by
  simp [varRefs]; tauto

theorem mem_varRefs_square {n : Name} {body rest : List Tok}
    (h : n ∈ varRefs body ∨ n ∈ varRefs rest) :
    n ∈ varRefs (Tok.square body :: rest) := by
  simp [varRefs]; tauto

theorem mem_varRefs_curly {n : Name} {body rest : List Tok}
    (h : n ∈ varRefs body ∨ n ∈ varRefs rest) :
    n ∈ varRefs (Tok.curly body :: rest) := by
  simp [varRefs]; tauto

theorem mem_name_cons {n name : Name} {refs0 : List Name} {body : List Tok}
    (hfa : firstArgList body = [name]) (hn : n ∈ name :: refs0) :
    (n ∈ firstArgList body ∨ n ∈ varRefs body) ∨ n ∈ refs0 := by
  rcases List.mem_cons.mp hn with rfl | hmem
  · left; left; simp [hfa]
  · right; exact hmem

/-- Every Name the parser records comes from the syntactic first-argument
position of some `var()` in the input (or was already in the sink). -/
theorem parse_refs_sound : ∀ fuel : Nat,
    (∀ toks first last refs0 out,
        parse_declaration_value_block fuel toks first last refs0 = some out →
        ∀ n, n ∈ out.2.2 → n ∈ varRefs toks ∨ n ∈ refs0) ∧
    (∀ body refs0 out,
        parse_var_function fuel body refs0 = some out →
        ∀ n, n ∈ out → (n ∈ firstArgList body ∨ n ∈ varRefs body) ∨ n ∈ refs0) ∧
    (∀ toks refs0 out,
        parse_declaration_value fuel toks refs0 = some out →
        ∀ n, n ∈ out.2.2 → n ∈ varRefs toks ∨ n ∈ refs0) := by
  intro fuel
  induction fuel with
  | zero =>
    refine ⟨?_, ?_, ?_⟩
    · intro toks first last refs0 out h n hn
      cases toks with
      | nil =>
        simp only [parse_declaration_value_block, Option.some.injEq] at h
        subst h
        exact Or.inr hn
      | cons t rest => simp [parse_declaration_value_block] at h
    · intro body refs0 out h n hn
      simp [parse_var_function] at h
    · intro toks refs0 out h n hn
      simp [parse_declaration_value] at h
  | succ fuel ih =>
    obtain ⟨ihB, ihV, ihD⟩ := ih
    refine ⟨?_, ?_, ?_⟩
    · intro toks first last refs0 out h n hn
      cases toks with
      | nil =>
        simp only [parse_declaration_value_block, Option.some.injEq] at h
        subst h
        exact Or.inr hn
      | cons t rest =>
        cases t
        case badUrl s => simp [parse_declaration_value_block] at h
        case badString s => simp [parse_declaration_value_block] at h
        case func fname body =>
          by_cases hv : eqIgnoreAsciiCase fname "var" = true
          · rcases hpv : parse_var_function fuel body refs0 with _ | refs'
            · simp [parse_declaration_value_block, hv, hpv] at h
            · have hred : parse_declaration_value_block (fuel+1) (Tok.func fname body :: rest) first last refs0
                  = parse_declaration_value_block fuel rest
                      (first.set_if_nothing (Tok.func fname body).serialization_type)
                      (Tok.func fname body).serialization_type refs' := by
                simp [parse_declaration_value_block, hv, hpv]
              rw [hred] at h
              rcases ihB rest _ _ refs' out h n hn with hr | hr
              · exact Or.inl (mem_varRefs_func (Or.inr hr))
              · rcases ihV body refs0 refs' hpv n hr with hb | hb
                · rcases hb with hb | hb
                  · exact Or.inl (mem_varRefs_func_first hv hb)
                  · exact Or.inl (mem_varRefs_func (Or.inl hb))
                · exact Or.inr hb
          · rcases hpb : parse_declaration_value_block fuel body .Nothing .Nothing refs0 with _ | ⟨f2, l2, refs'⟩
            · simp [parse_declaration_value_block, hv, hpb] at h
            · have hred : parse_declaration_value_block (fuel+1) (Tok.func fname body :: rest) first last refs0
                  = parse_declaration_value_block fuel rest
                      (first.set_if_nothing (Tok.func fname body).serialization_type)
                      (Tok.func fname body).serialization_type refs' := by
                simp [parse_declaration_value_block, hv, hpb]
              rw [hred] at h
              rcases ihB rest _ _ refs' out h n hn with hr | hr
              · exact Or.inl (mem_varRefs_func (Or.inr hr))
              · rcases ihB body _ _ refs0 _ hpb n hr with hb | hb
                · exact Or.inl (mem_varRefs_func (Or.inl hb))
                · exact Or.inr hb
        case paren body =>
          rcases hpb : parse_declaration_value_block fuel body .Nothing .Nothing refs0 with _ | ⟨f2, l2, refs'⟩
          · simp [parse_declaration_value_block, hpb] at h
          · have hred : parse_declaration_value_block (fuel+1) (Tok.paren body :: rest) first last refs0
                = parse_declaration_value_block fuel rest
                    (first.set_if_nothing (Tok.paren body).serialization_type)
                    (Tok.paren body).serialization_type refs' := by
              simp [parse_declaration_value_block, hpb]
            rw [hred] at h
            rcases ihB rest _ _ refs' out h n hn with hr | hr
            · exact Or.inl (mem_varRefs_paren (Or.inr hr))
            · rcases ihB body _ _ refs0 _ hpb n hr with hb | hb
              · exact Or.inl (mem_varRefs_paren (Or.inl hb))
              · exact Or.inr hb
        case square body =>
          rcases hpb : parse_declaration_value_block fuel body .Nothing .Nothing refs0 with _ | ⟨f2, l2, refs'⟩
          · simp [parse_declaration_value_block, hpb] at h
          · have hred : parse_declaration_value_block (fuel+1) (Tok.square body :: rest) first last refs0
                = parse_declaration_value_block fuel rest
                    (first.set_if_nothing (Tok.square body).serialization_type)
                    (Tok.square body).serialization_type refs' := by
              simp [parse_declaration_value_block, hpb]
            rw [hred] at h
            rcases ihB rest _ _ refs' out h n hn with hr | hr
            · exact Or.inl (mem_varRefs_square (Or.inr hr))
            · rcases ihB body _ _ refs0 _ hpb n hr with hb | hb
              · exact Or.inl (mem_varRefs_square (Or.inl hb))
              · exact Or.inr hb
        case curly body =>
          rcases hpb : parse_declaration_value_block fuel body .Nothing .Nothing refs0 with _ | ⟨f2, l2, refs'⟩
          · simp [parse_declaration_value_block, hpb] at h
          · have hred : parse_declaration_value_block (fuel+1) (Tok.curly body :: rest) first last refs0
                = parse_declaration_value_block fuel rest
                    (first.set_if_nothing (Tok.curly body).serialization_type)
                    (Tok.curly body).serialization_type refs' := by
              simp [parse_declaration_value_block, hpb]
            rw [hred] at h
            rcases ihB rest _ _ refs' out h n hn with hr | hr
            · exact Or.inl (mem_varRefs_curly (Or.inr hr))
            · rcases ihB body _ _ refs0 _ hpb n hr with hb | hb
              · exact Or.inl (mem_varRefs_curly (Or.inl hb))
              · exact Or.inr hb
        all_goals
          simp only [parse_declaration_value_block] at h
        all_goals
          rcases ihB rest _ _ refs0 out h n hn with hr | hr
        all_goals
          first
            | exact Or.inl (by simp only [varRefs]; exact hr)
            | exact Or.inr hr
    · intro body refs0 out h n hn
      rcases hid : expectIdentTok body with _ | ⟨rawName, afterIdent⟩
      · simp [parse_var_function, hid] at h
      · rcases hpn : parse_name rawName with _ | name
        · simp [parse_var_function, hid, hpn] at h
        · have hfa : firstArgList body = [name] := by
            simp [firstArgList, hid, hpn]
          have hbody : varRefs body = varRefs afterIdent :=
            varRefs_expectIdent body rawName afterIdent hid
          rcases hcm : nextNonWs afterIdent with _ | ⟨t1, fb⟩
          · have hred : parse_var_function (fuel+1) body refs0 = some (name :: refs0) := by
              simp [parse_var_function, hid, hpn, hcm]
            rw [hred] at h
            injection h with h2
            subst h2
            exact mem_name_cons hfa hn
          · cases t1
            case comma =>
              rcases hpd : parse_declaration_value fuel fb refs0 with _ | ⟨f2, l2, refs'⟩
              · simp [parse_var_function, hid, hpn, hcm, hpd] at h
              · have hred : parse_var_function (fuel+1) body refs0 = some (name :: refs') := by
                  simp [parse_var_function, hid, hpn, hcm, hpd]
                rw [hred] at h
                injection h with h2
                subst h2
                rcases List.mem_cons.mp hn with rfl | hmem
                · left; left; simp [hfa]
                · rcases ihD fb refs0 _ hpd n hmem with hr | hr
                  · left; right
                    rw [hbody, varRefs_nextNonWs afterIdent fb _ hcm]
                    simpa [varRefs] using hr
                  · right; exact hr
            all_goals
              rcases hlo : nextNonWs fb with _ | z2
              · have hred : parse_var_function (fuel+1) body refs0 = some (name :: refs0) := by
                  simp [parse_var_function, hid, hpn, hcm, hlo]
                rw [hred] at h
                injection h with h2
                subst h2
                exact mem_name_cons hfa hn
              · simp [parse_var_function, hid, hpn, hcm, hlo] at h
    · intro toks refs0 out h n hn
      by_cases hsemi : toks.any isSemiTok = true
      · simp [parse_declaration_value, hsemi] at h
      · rcases hni : nextIncludingWs toks with _ | z
        · simp [parse_declaration_value, hsemi, hni] at h
        · have hred : parse_declaration_value (fuel+1) toks refs0
              = parse_declaration_value_block fuel toks .Nothing .Nothing refs0 := by
            simp [parse_declaration_value, hsemi, hni]
          rw [hred] at h
          exact ihB toks _ _ refs0 out h n hn

/-- C5 counterexample: `parse` accepts `var(--a var(--b))` and records only
`a`, although `b` occurs syntactically as the first argument of the inner
`var()`.  The failed `expect_comma` consumes the inner function token, so
its block is skipped rather than scanned, and the claimed set equality
fails. -/
theorem C5_counterexample :
    (parse t6).map (fun sv => sv.references) = some ["a"] ∧
    "b" ∈ varRefs t6 ∧ "b" ∉ (["a"] : List Name) := by
  refine ⟨rfl, ?_, by decide⟩
  have h1 : firstArgList [Tok.ident "--b"] = ["b"] := rfl
  have h2 : ("b" : Name) ∈ varRefs [Tok.func "var" [Tok.ident "--b"]] := by
    apply mem_varRefs_func_first (by decide)
    rw [h1]
    exact List.mem_singleton_self _
  have h3 : varRefs [Tok.ident "--a", Tok.ws " ", Tok.func "var" [Tok.ident "--b"]]
      = varRefs [Tok.func "var" [Tok.ident "--b"]] := by
    simp only [varRefs]
  exact mem_varRefs_func (Or.inl (h3 ▸ h2))

/-- C5 amended: one inclusion of the claimed equality holds — every Name in
`SpecifiedValue.references` occurs syntactically as the first argument of
some `var()` in the parsed value (the converse fails, see the
counterexample). -/
theorem C5_amended_references_sound (toks : List Tok) (sv : SpecifiedValue)
    (h : parse toks = some sv) : ∀ n ∈ sv.references, n ∈ varRefs sv.toks := by
  intro n hn
  simp only [parse] at h
  split at h
  · simp at h
  · rename_i first last refs heq
    simp only [Option.some.injEq] at h
    subst h
    rcases (parse_refs_sound _).2.2 _ [] _ heq n hn with hr | hr
    · exact hr
    · simp at hr

/-- Witness for the amended C5 at the counterexample input. -/
theorem C5_amended_references_sound_witness :
    ("a" : Name) ∈ varRefs ((parse t6).getD dfltSV).toks :=
  C5_amended_references_sound t6 ((parse t6).getD dfltSV) rfl "a" (by decide)
